import Mathlib

/-!
# A verified model of the docplex-examples MIP core

The two notebooks in this repository build mixed-integer linear programs and
delegate solving to an external engine.  Following the specification, this file
embeds the minimal generic substitute: a linear expression algebra, a model
layer, an exact LP relaxation solver (Fourier-Motzkin projection, an exact
equivalent of the specified simplex), and a budgeted branch-and-bound engine.
All arithmetic is exact over `ℚ`.
-/

namespace MipSpec

/-- A linear inequality row over rational variables: `coeffs · x ≤ rhs`. -/
structure Row where
  coeffs : List ℚ
  rhs : ℚ
deriving DecidableEq, Repr

/-- Dot product of two rational lists, truncating at the shorter list. -/
def dot : List ℚ → List ℚ → ℚ
  | [], _ => 0
  | _, [] => 0
  | a :: as, x :: xs => a * x + dot as xs

@[simp] theorem dot_nil_left (x : List ℚ) : dot [] x = 0 := by cases x <;> rfl

@[simp] theorem dot_nil_right (a : List ℚ) : dot a [] = 0 := by cases a <;> rfl

@[simp] theorem dot_cons (a x : ℚ) (as xs : List ℚ) :
    dot (a :: as) (x :: xs) = a * x + dot as xs := rfl

/-- A point satisfies a row when the dot product is at most the bound. -/
def satRow (x : List ℚ) (r : Row) : Prop := dot r.coeffs x ≤ r.rhs

instance (x : List ℚ) (r : Row) : Decidable (satRow x r) := by
  unfold satRow; infer_instance

/-- A point satisfies a system when it satisfies every row. -/
def satSys (cs : List Row) (x : List ℚ) : Prop := ∀ r ∈ cs, satRow x r

instance (cs : List Row) (x : List ℚ) : Decidable (satSys cs x) :=
  List.decidableBAll _ cs

theorem satSys_append {cs ds : List Row} {x : List ℚ} :
    satSys (cs ++ ds) x ↔ satSys cs x ∧ satSys ds x := by
  constructor
  · intro h
    exact ⟨fun r hr => h r (List.mem_append_left _ hr),
           fun r hr => h r (List.mem_append_right _ hr)⟩
  · rintro ⟨h1, h2⟩ r hr
    rcases List.mem_append.mp hr with h | h
    · exact h1 r h
    · exact h2 r h

/-- All rows of a system have coefficient lists of length `n`. -/
def RowsWf (n : ℕ) (cs : List Row) : Prop := ∀ r ∈ cs, r.coeffs.length = n

theorem rowsWf_append {n : ℕ} {cs ds : List Row} (h1 : RowsWf n cs) (h2 : RowsWf n ds) :
    RowsWf n (cs ++ ds) := by
  intro r hr
  rcases List.mem_append.mp hr with h | h
  · exact h1 r h
  · exact h2 r h

/-! ### Folded maxima and minima over lists of rationals -/

theorem foldl_max_le {b : ℚ} :
    ∀ (l : List ℚ) (a : ℚ), a ≤ b → (∀ c ∈ l, c ≤ b) → l.foldl max a ≤ b
  | [], a, ha, _ => ha
  | c :: l, a, ha, hl =>
    foldl_max_le l (max a c) (max_le ha (hl c (List.mem_cons_self _ _)))
      (fun d hd => hl d (List.mem_cons_of_mem _ hd))

theorem le_foldl_max_init : ∀ (l : List ℚ) (a : ℚ), a ≤ l.foldl max a
  | [], _ => le_refl _
  | c :: l, a => le_trans (le_max_left a c) (le_foldl_max_init l (max a c))

theorem le_foldl_max_mem {c : ℚ} :
    ∀ (l : List ℚ) (a : ℚ), c ∈ l → c ≤ l.foldl max a
  | [], _, h => absurd h (List.not_mem_nil _)
  | d :: l, a, h => by
    rcases List.mem_cons.mp h with rfl | h
    · exact le_trans (le_max_right a c) (le_foldl_max_init l (max a c))
    · exact le_foldl_max_mem l (max a d) h

theorem foldl_min_le_init : ∀ (l : List ℚ) (a : ℚ), l.foldl min a ≤ a
  | [], _ => le_refl _
  | c :: l, a => le_trans (foldl_min_le_init l (min a c)) (min_le_left a c)

theorem foldl_min_le_mem {c : ℚ} :
    ∀ (l : List ℚ) (a : ℚ), c ∈ l → l.foldl min a ≤ c
  | [], _, h => absurd h (List.not_mem_nil _)
  | d :: l, a, h => by
    rcases List.mem_cons.mp h with rfl | h
    · exact le_trans (foldl_min_le_init l (min a c)) (min_le_right a c)
    · exact foldl_min_le_mem l (min a d) h

theorem le_foldl_max_cons {c l : ℚ} {ls : List ℚ} (h : c ∈ l :: ls) : c ≤ ls.foldl max l := by
  rcases List.mem_cons.mp h with rfl | h
  · exact le_foldl_max_init ls c
  · exact le_foldl_max_mem ls l h

theorem foldl_max_cons_le {b l : ℚ} {ls : List ℚ} (h : ∀ c ∈ l :: ls, c ≤ b) :
    ls.foldl max l ≤ b :=
  foldl_max_le ls l (h l (List.mem_cons_self _ _)) (fun c hc => h c (List.mem_cons_of_mem _ hc))

theorem foldl_min_cons_le {c u : ℚ} {us : List ℚ} (h : c ∈ u :: us) : us.foldl min u ≤ c := by
  rcases List.mem_cons.mp h with rfl | h
  · exact foldl_min_le_init us c
  · exact foldl_min_le_mem us u h

/-! ### One step of Fourier-Motzkin elimination

`fmStep` eliminates the first variable from a system of `≤`-rows: rows with a
zero head coefficient survive with the head dropped, and every (positive head,
negative head) pair is combined into the row expressing that the induced lower
bound on the eliminated variable is at most the induced upper bound. -/

/-- Head coefficient of a row (`0` for an empty row). -/
def headC (r : Row) : ℚ := r.coeffs.headD 0

/-- Drop the head coefficient of a row. -/
def tailRow (r : Row) : Row := ⟨r.coeffs.tail, r.rhs⟩

/-- The bound on the eliminated variable that a row with nonzero head induces
at the partial assignment `xs` of the remaining variables. -/
def bnd (r : Row) (xs : List ℚ) : ℚ := (r.rhs - dot r.coeffs.tail xs) / headC r

/-- Combination of a positive-head row and a negative-head row. -/
def comb (p q : Row) : Row :=
  ⟨List.zipWith (fun s t => s / headC p - t / headC q) p.coeffs.tail q.coeffs.tail,
   p.rhs / headC p - q.rhs / headC q⟩

/-- One Fourier-Motzkin elimination step. -/
def fmStep (cs : List Row) : List Row :=
  ((cs.filter fun r => decide (headC r = 0)).map tailRow) ++
    ((cs.filter fun r => decide (0 < headC r)).flatMap fun p =>
      (cs.filter fun r => decide (headC r < 0)).map fun q => comb p q)

theorem headC_ne_zero_coeffs {r : Row} (h : headC r ≠ 0) : r.coeffs ≠ [] := by
  intro hnil
  exact h (by simp [headC, hnil])

theorem dot_cons_headC {r : Row} (h : r.coeffs ≠ []) (x0 : ℚ) (xs : List ℚ) :
    dot r.coeffs (x0 :: xs) = headC r * x0 + dot r.coeffs.tail xs := by
  rcases r with ⟨cs, b⟩
  cases cs with
  | nil => simp at h
  | cons c cst => simp [headC]

theorem satRow_pos {r : Row} (hr : 0 < headC r) (x0 : ℚ) (xs : List ℚ) :
    satRow (x0 :: xs) r ↔ x0 ≤ bnd r xs := by
  rw [satRow, dot_cons_headC (headC_ne_zero_coeffs (ne_of_gt hr)), bnd, le_div_iff₀ hr]
  constructor <;> intro h <;> linarith

theorem satRow_neg {r : Row} (hr : headC r < 0) (x0 : ℚ) (xs : List ℚ) :
    satRow (x0 :: xs) r ↔ bnd r xs ≤ x0 := by
  rw [satRow, dot_cons_headC (headC_ne_zero_coeffs (ne_of_lt hr)), bnd, div_le_iff_of_neg hr]
  constructor <;> intro h <;> linarith

theorem satRow_zero {r : Row} (hr : headC r = 0) (x0 : ℚ) (xs : List ℚ) :
    satRow (x0 :: xs) r ↔ satRow xs (tailRow r) := by
  rcases r with ⟨cs, b⟩
  cases cs with
  | nil => simp [satRow, tailRow]
  | cons c cst =>
    simp only [headC, List.headD_cons] at hr
    simp [satRow, tailRow, hr]

theorem dot_zipWith_div (a b : ℚ) :
    ∀ (u v xs : List ℚ), u.length = v.length →
      dot (List.zipWith (fun s t => s / a - t / b) u v) xs = dot u xs / a - dot v xs / b
  | [], [], xs, _ => by simp
  | [], v :: vs, xs, h => by simp at h
  | u :: us, [], xs, h => by simp at h
  | u :: us, v :: vs, [], _ => by simp
  | u :: us, v :: vs, x :: xs, h => by
    simp only [List.zipWith_cons_cons, dot_cons]
    rw [dot_zipWith_div a b us vs xs (by simpa using h)]
    ring

theorem satRow_comb_iff {p q : Row} (hp : 0 < headC p) (hq : headC q < 0)
    (hlen : p.coeffs.tail.length = q.coeffs.tail.length) (xs : List ℚ) :
    satRow xs (comb p q) ↔ bnd q xs ≤ bnd p xs := by
  have h1 : satRow xs (comb p q) ↔
      dot p.coeffs.tail xs / headC p - dot q.coeffs.tail xs / headC q ≤
        p.rhs / headC p - q.rhs / headC q := by
    rw [satRow, comb, dot_zipWith_div _ _ _ _ _ hlen]
  rw [h1, bnd, bnd, sub_div, sub_div]
  constructor <;> intro h <;> linarith

theorem rowsWf_fmStep {n : ℕ} {cs : List Row} (h : RowsWf (n + 1) cs) :
    RowsWf n (fmStep cs) := by
  intro r hr
  rw [fmStep] at hr
  rcases List.mem_append.mp hr with hr | hr
  · rcases List.mem_map.mp hr with ⟨s, hs, rfl⟩
    have hl := h s (List.mem_filter.mp hs).1
    simp [tailRow, List.length_tail, hl]
  · rcases List.mem_flatMap.mp hr with ⟨p, hp, hr⟩
    rcases List.mem_map.mp hr with ⟨q, hq, rfl⟩
    have hp' := h p (List.mem_filter.mp hp).1
    have hq' := h q (List.mem_filter.mp hq).1
    simp [comb, List.length_zipWith, List.length_tail, hp', hq']

theorem sat_fmStep {n : ℕ} {cs : List Row} (hwf : RowsWf (n + 1) cs)
    {x0 : ℚ} {xs : List ℚ} (h : satSys cs (x0 :: xs)) : satSys (fmStep cs) xs := by
  intro r hr
  rw [fmStep] at hr
  rcases List.mem_append.mp hr with hr | hr
  · rcases List.mem_map.mp hr with ⟨s, hs, rfl⟩
    have hz : headC s = 0 := by
      have := (List.mem_filter.mp hs).2; simpa using this
    exact (satRow_zero hz x0 xs).mp (h s (List.mem_filter.mp hs).1)
  · rcases List.mem_flatMap.mp hr with ⟨p, hp, hr⟩
    rcases List.mem_map.mp hr with ⟨q, hq, rfl⟩
    have hppos : 0 < headC p := by
      have := (List.mem_filter.mp hp).2; simpa using this
    have hqneg : headC q < 0 := by
      have := (List.mem_filter.mp hq).2; simpa using this
    have hlen : p.coeffs.tail.length = q.coeffs.tail.length := by
      have h1 := hwf p (List.mem_filter.mp hp).1
      have h2 := hwf q (List.mem_filter.mp hq).1
      simp [List.length_tail, h1, h2]
    have hup := (satRow_pos hppos x0 xs).mp (h p (List.mem_filter.mp hp).1)
    have hlo := (satRow_neg hqneg x0 xs).mp (h q (List.mem_filter.mp hq).1)
    exact (satRow_comb_iff hppos hqneg hlen xs).mpr (le_trans hlo hup)

/-- Induced lower bounds on the eliminated variable at `xs`. -/
def lowers (cs : List Row) (xs : List ℚ) : List ℚ :=
  (cs.filter fun r => decide (headC r < 0)).map fun r => bnd r xs

/-- Induced upper bounds on the eliminated variable at `xs`. -/
def uppers (cs : List Row) (xs : List ℚ) : List ℚ :=
  (cs.filter fun r => decide (0 < headC r)).map fun r => bnd r xs

/-- A value for the eliminated variable chosen inside the induced interval:
the largest lower bound when one exists, else the smallest upper bound. -/
def pick (cs : List Row) (xs : List ℚ) : ℚ :=
  match lowers cs xs with
  | [] =>
    match uppers cs xs with
    | [] => 0
    | u :: us => us.foldl min u
  | l :: ls => ls.foldl max l

theorem sat_pick {n : ℕ} {cs : List Row} (hwf : RowsWf (n + 1) cs)
    {xs : List ℚ} (h : satSys (fmStep cs) xs) : satSys cs (pick cs xs :: xs) := by
  intro r hr
  rcases lt_trichotomy (headC r) 0 with hneg | hzero | hpos
  · rw [satRow_neg hneg]
    have hmem : bnd r xs ∈ lowers cs xs :=
      List.mem_map_of_mem _ (List.mem_filter.mpr ⟨hr, by simpa using hneg⟩)
    rw [pick]
    cases hl : lowers cs xs with
    | nil => rw [hl] at hmem; exact absurd hmem (List.not_mem_nil _)
    | cons l ls =>
      rw [hl] at hmem
      exact le_foldl_max_cons hmem
  · have hmem : tailRow r ∈ fmStep cs :=
      List.mem_append_left _
        (List.mem_map_of_mem _ (List.mem_filter.mpr ⟨hr, by simpa using hzero⟩))
    exact (satRow_zero hzero _ xs).mpr (h _ hmem)
  · rw [satRow_pos hpos]
    have hmem : bnd r xs ∈ uppers cs xs :=
      List.mem_map_of_mem _ (List.mem_filter.mpr ⟨hr, by simpa using hpos⟩)
    rw [pick]
    cases hl : lowers cs xs with
    | nil =>
      cases hu : uppers cs xs with
      | nil => rw [hu] at hmem; exact absurd hmem (List.not_mem_nil _)
      | cons u us =>
        rw [hu] at hmem
        exact foldl_min_cons_le hmem
    | cons l ls =>
      apply foldl_max_cons_le
      rw [← hl]
      intro c hc
      rcases List.mem_map.mp hc with ⟨q, hq, rfl⟩
      have hqneg : headC q < 0 := by
        have := (List.mem_filter.mp hq).2; simpa using this
      have hcomb : comb r q ∈ fmStep cs := by
        apply List.mem_append_right
        exact List.mem_flatMap.mpr
          ⟨r, List.mem_filter.mpr ⟨hr, by simpa using hpos⟩, List.mem_map_of_mem _ hq⟩
      have hlen : r.coeffs.tail.length = q.coeffs.tail.length := by
        have h1 := hwf r hr
        have h2 := hwf q (List.mem_filter.mp hq).1
        simp [List.length_tail, h1, h2]
      exact (satRow_comb_iff hpos hqneg hlen xs).mp (h _ hcomb)

/-! ### Iterated elimination and back-substitution -/

/-- Eliminate the first `k` variables of a system. -/
def fmElim : ℕ → List Row → List Row
  | 0, cs => cs
  | k + 1, cs => fmElim k (fmStep cs)

theorem rowsWf_fmElim : ∀ (k : ℕ) {j : ℕ} {cs : List Row},
    RowsWf (k + j) cs → RowsWf j (fmElim k cs)
  | 0, _, _, h => by simpa using h
  | k + 1, j, cs, h => by
    show RowsWf j (fmElim k (fmStep cs))
    apply rowsWf_fmElim k
    apply rowsWf_fmStep
    have heq : k + 1 + j = k + j + 1 := by omega
    rwa [heq] at h

theorem sat_fmElim : ∀ (k : ℕ) {j : ℕ} {cs : List Row} {ys xs : List ℚ},
    RowsWf (k + j) cs → ys.length = k → satSys cs (ys ++ xs) → satSys (fmElim k cs) xs
  | 0, _, _, ys, _, _, hlen, h => by
    have hys : ys = [] := List.eq_nil_of_length_eq_zero hlen
    subst hys
    simpa using h
  | k + 1, j, cs, ys, xs, hwf, hlen, h => by
    cases ys with
    | nil => simp at hlen
    | cons y ys' =>
      show satSys (fmElim k (fmStep cs)) xs
      have hwf' : RowsWf (k + j + 1) cs := by
        have heq : k + 1 + j = k + j + 1 := by omega
        rwa [heq] at hwf
      exact sat_fmElim k (rowsWf_fmStep hwf') (by simpa using hlen)
        (sat_fmStep hwf' (by simpa using h))

/-- Reconstruct values for the `k` eliminated variables above a partial
assignment of the remaining ones, choosing each value inside its interval. -/
def backSub : ℕ → List Row → List ℚ → List ℚ
  | 0, _, xs => xs
  | k + 1, cs, xs => pick cs (backSub k (fmStep cs) xs) :: backSub k (fmStep cs) xs

theorem sat_backSub : ∀ (k : ℕ) {j : ℕ} {cs : List Row} {xs : List ℚ},
    RowsWf (k + j) cs → satSys (fmElim k cs) xs → satSys cs (backSub k cs xs)
  | 0, _, _, _, _, h => h
  | k + 1, j, cs, xs, hwf, h => by
    have hwf' : RowsWf (k + j + 1) cs := by
      have heq : k + 1 + j = k + j + 1 := by omega
      rwa [heq] at hwf
    have hstep : satSys (fmStep cs) (backSub k (fmStep cs) xs) :=
      sat_backSub k (rowsWf_fmStep hwf') h
    exact sat_pick hwf' hstep

theorem backSub_eq_append : ∀ (k : ℕ) (cs : List Row) (xs : List ℚ),
    ∃ ys : List ℚ, ys.length = k ∧ backSub k cs xs = ys ++ xs
  | 0, _, xs => ⟨[], rfl, rfl⟩
  | k + 1, cs, xs => by
    obtain ⟨ys, hlen, heq⟩ := backSub_eq_append k (fmStep cs) xs
    exact ⟨pick cs (backSub k (fmStep cs) xs) :: ys, by simp [hlen],
      by simp [backSub, heq]⟩

/-! ### The LP relaxation solver -/

/-- Negated coefficient list. -/
def negL (c : List ℚ) : List ℚ := c.map Neg.neg

theorem dot_negL : ∀ (c x : List ℚ), dot (negL c) x = -dot c x
  | [], x => by simp [negL]
  | a :: as, [] => by simp [negL]
  | a :: as, x :: xs => by
    simp only [negL, List.map_cons, dot_cons]
    rw [show List.map Neg.neg as = negL as from rfl, dot_negL as xs]
    ring

theorem dot_append : ∀ (a x b y : List ℚ), a.length = x.length →
    dot (a ++ b) (x ++ y) = dot a x + dot b y
  | [], [], b, y, _ => by simp
  | [], x :: xs, b, y, h => by simp at h
  | a :: as, [], b, y, h => by simp at h
  | a :: as, x :: xs, b, y, h => by
    simp only [List.cons_append, dot_cons]
    rw [dot_append as xs b y (by simpa using h)]
    ring

/-- Extend every row with a zero coefficient for a fresh objective variable,
and add the two rows pinning the objective variable to `c · x`. -/
def zSystem (cs : List Row) (c : List ℚ) : List Row :=
  (cs.map fun r => ⟨r.coeffs ++ [0], r.rhs⟩) ++
    [⟨negL c ++ [1], 0⟩, ⟨c ++ [-1], 0⟩]

theorem rowsWf_zSystem {n : ℕ} {cs : List Row} {c : List ℚ}
    (hwf : RowsWf n cs) (hc : c.length = n) : RowsWf (n + 1) (zSystem cs c) := by
  intro r hr
  rw [zSystem] at hr
  rcases List.mem_append.mp hr with hr | hr
  · rcases List.mem_map.mp hr with ⟨s, hs, rfl⟩
    simp [hwf s hs]
  · rcases List.mem_cons.mp hr with rfl | hr
    · simp [negL, hc]
    · rcases List.mem_cons.mp hr with rfl | hr
      · simp [hc]
      · exact absurd hr (List.not_mem_nil _)

theorem satSys_zSystem_iff {cs : List Row} {c : List ℚ}
    {x : List ℚ} (hcx : c.length = x.length) (hwfx : ∀ r ∈ cs, r.coeffs.length = x.length)
    (z : ℚ) :
    satSys (zSystem cs c) (x ++ [z]) ↔ satSys cs x ∧ z = dot c x := by
  have hz1 : dot (negL c ++ [1]) (x ++ [z]) = z - dot c x := by
    rw [dot_append _ _ _ _ (by simp [negL, hcx]), dot_negL]
    simp [dot]
    ring
  have hz2 : dot (c ++ [-1]) (x ++ [z]) = dot c x - z := by
    rw [dot_append _ _ _ _ hcx]
    simp [dot]
    ring
  constructor
  · intro h
    have h1 : satSys cs x := by
      intro r hr
      have hm : (⟨r.coeffs ++ [0], r.rhs⟩ : Row) ∈ zSystem cs c :=
        List.mem_append_left _ (List.mem_map_of_mem _ hr)
      have := h _ hm
      rw [satRow, dot_append _ _ _ _ (hwfx r hr)] at this
      simpa [satRow, dot] using this
    have hm1 : (⟨negL c ++ [1], (0 : ℚ)⟩ : Row) ∈ zSystem cs c := by
      rw [zSystem]
      exact List.mem_append_right _ (List.mem_cons_self _ _)
    have hm2 : (⟨c ++ [-1], (0 : ℚ)⟩ : Row) ∈ zSystem cs c := by
      rw [zSystem]
      exact List.mem_append_right _ (List.mem_cons_of_mem _ (List.mem_cons_self _ _))
    have hv1 : z - dot c x ≤ 0 := by
      have hh := h _ hm1
      rw [satRow, hz1] at hh
      exact hh
    have hv2 : dot c x - z ≤ 0 := by
      have hh := h _ hm2
      rw [satRow, hz2] at hh
      exact hh
    exact ⟨h1, by linarith⟩
  · rintro ⟨h1, rfl⟩ r hr
    rw [zSystem] at hr
    rcases List.mem_append.mp hr with hr | hr
    · rcases List.mem_map.mp hr with ⟨s, hs, rfl⟩
      rw [satRow, dot_append _ _ _ _ (hwfx s hs)]
      have := h1 s hs
      rw [satRow] at this
      simpa [dot] using this
    · rcases List.mem_cons.mp hr with rfl | hr
      · rw [satRow, hz1]; simp
      · rcases List.mem_cons.mp hr with rfl | hr
        · rw [satRow, hz2]; simp
        · exact absurd hr (List.not_mem_nil _)

/-- Result of an LP relaxation solve. -/
inductive LPResult where
  | infeasible
  | unbounded
  | optimal (point : List ℚ)
deriving DecidableEq, Repr

/-- The one-variable system obtained by eliminating all original variables. -/
def lpSys (n : ℕ) (cs : List Row) (c : List ℚ) : List Row := fmElim n (zSystem cs c)

/-- Candidate optimal value of the objective variable. -/
def lpVal (n : ℕ) (cs : List Row) (c : List ℚ) : ℚ := pick (lpSys n cs c) []

/-- Modelled from the spec: the LP Relaxation Solver of §4.3 (the spec allows
"a two-phase revised simplex method (or equivalent)"; this is an exact
equivalent by Fourier-Motzkin projection).  Minimizes `c · x` over the rows
`cs` in `n` variables, returning `infeasible`, `unbounded`, or an optimal
point. -/
def lpSolve (n : ℕ) (cs : List Row) (c : List ℚ) : LPResult :=
  if satSys (lpSys n cs c) [lpVal n cs c] then
    if lowers (lpSys n cs c) [] = [] then .unbounded
    else .optimal ((backSub n (zSystem cs c) [lpVal n cs c]).take n)
  else .infeasible

theorem sat_lpSys_of_sat {n : ℕ} {cs : List Row} {c : List ℚ}
    (hwf : RowsWf n cs) (hc : c.length = n) {y : List ℚ} (hy : y.length = n)
    (h : satSys cs y) : satSys (lpSys n cs c) [dot c y] := by
  apply sat_fmElim n (j := 1) (rowsWf_zSystem hwf hc) hy
  exact (satSys_zSystem_iff (by omega) (fun r hr => by rw [hwf r hr, hy]) _).mpr ⟨h, rfl⟩

theorem sat_pick_of_sat_one {s1 : List Row} (hwf1 : RowsWf 1 s1) {z : ℚ}
    (h : satSys s1 [z]) : satSys s1 [pick s1 []] :=
  sat_pick (n := 0) hwf1 (sat_fmStep (n := 0) hwf1 h)

theorem pick_le_of_sat_one {s1 : List Row} {z : ℚ} (h : satSys s1 [z])
    (hne : lowers s1 [] ≠ []) : pick s1 [] ≤ z := by
  rw [pick]
  cases hl : lowers s1 [] with
  | nil => exact absurd hl hne
  | cons l ls =>
    apply foldl_max_cons_le
    rw [← hl]
    intro d hd
    rcases List.mem_map.mp hd with ⟨r, hr, rfl⟩
    have hneg : headC r < 0 := by
      have := (List.mem_filter.mp hr).2; simpa using this
    exact (satRow_neg hneg z []).mp (h r (List.mem_filter.mp hr).1)

theorem sat_one_of_no_lowers {s1 : List Row} {z0 : ℚ}
    (hl : lowers s1 [] = []) (h : satSys s1 [z0]) (B : ℚ) : satSys s1 [min z0 B] := by
  intro r hr
  rcases lt_trichotomy (headC r) 0 with hneg | hzero | hpos
  · exfalso
    have hm : bnd r [] ∈ lowers s1 [] :=
      List.mem_map_of_mem _ (List.mem_filter.mpr ⟨hr, by simpa using hneg⟩)
    rw [hl] at hm
    exact absurd hm (List.not_mem_nil _)
  · exact (satRow_zero hzero _ []).mpr ((satRow_zero hzero z0 []).mp (h r hr))
  · exact (satRow_pos hpos _ []).mpr
      (le_trans (min_le_left _ _) ((satRow_pos hpos z0 []).mp (h r hr)))

theorem lpSolve_optimal_spec {n : ℕ} {cs : List Row} {c x : List ℚ}
    (hwf : RowsWf n cs) (hc : c.length = n)
    (h : lpSolve n cs c = .optimal x) :
    x.length = n ∧ satSys cs x ∧ dot c x = lpVal n cs c ∧
      ∀ y : List ℚ, y.length = n → satSys cs y → dot c x ≤ dot c y := by
  rw [lpSolve] at h
  split_ifs at h with h1 h2
  · have hx : (backSub n (zSystem cs c) [lpVal n cs c]).take n = x :=
      LPResult.optimal.inj h
    have hsat : satSys (zSystem cs c) (backSub n (zSystem cs c) [lpVal n cs c]) :=
      sat_backSub n (j := 1) (rowsWf_zSystem hwf hc) h1
    obtain ⟨ys, hlen, heq⟩ := backSub_eq_append n (zSystem cs c) [lpVal n cs c]
    rw [heq] at hsat hx
    rw [← hlen, List.take_left] at hx
    subst hx
    have hiff := (satSys_zSystem_iff (c := c) (x := ys) (by omega)
      (fun r hr => by rw [hwf r hr, hlen]) (lpVal n cs c)).mp hsat
    refine ⟨hlen, hiff.1, hiff.2.symm, ?_⟩
    intro y hy hyfeas
    rw [← hiff.2]
    exact pick_le_of_sat_one (sat_lpSys_of_sat hwf hc hy hyfeas) h2

theorem lpSolve_infeasible_spec {n : ℕ} {cs : List Row} {c : List ℚ}
    (hwf : RowsWf n cs) (hc : c.length = n)
    (h : lpSolve n cs c = .infeasible) :
    ∀ y : List ℚ, y.length = n → ¬ satSys cs y := by
  intro y hy hyfeas
  rw [lpSolve] at h
  split_ifs at h with h1
  · apply h1
    exact sat_pick_of_sat_one (rowsWf_fmElim n (j := 1) (rowsWf_zSystem hwf hc))
      (sat_lpSys_of_sat hwf hc hy hyfeas)

theorem lpSolve_unbounded_spec {n : ℕ} {cs : List Row} {c : List ℚ}
    (hwf : RowsWf n cs) (hc : c.length = n)
    (h : lpSolve n cs c = .unbounded) (B : ℚ) :
    ∃ y : List ℚ, y.length = n ∧ satSys cs y ∧ dot c y ≤ B := by
  rw [lpSolve] at h
  split_ifs at h with h1 h2
  · have hz : satSys (lpSys n cs c) [min (lpVal n cs c) B] :=
      sat_one_of_no_lowers h2 h1 B
    have hsat : satSys (zSystem cs c) (backSub n (zSystem cs c) [min (lpVal n cs c) B]) :=
      sat_backSub n (j := 1) (rowsWf_zSystem hwf hc) hz
    obtain ⟨ys, hlen, heq⟩ := backSub_eq_append n (zSystem cs c) [min (lpVal n cs c) B]
    rw [heq] at hsat
    have hiff := (satSys_zSystem_iff (c := c) (x := ys) (by omega)
      (fun r hr => by rw [hwf r hr, hlen]) _).mp hsat
    exact ⟨ys, hlen, hiff.1, by rw [← hiff.2]; exact min_le_right _ _⟩

/-! ### The model layer

Modelled from the spec (§3 Data Model, §4.2 Model): variables with a domain
kind and bounds, sparse-free linear expressions (the coefficient of variable
`i` is entry `i` of a list), constraints with a relational operator, one
objective, and named KPIs. -/

/-- Modelled from the spec: variable domain kinds (§3). -/
inductive VarKind where
  | continuous
  | integer
  | binary
deriving DecidableEq, Repr

/-- Modelled from the spec: a decision variable with bounds (§3); `none`
means the bound is absent (infinite). -/
structure Variable where
  kind : VarKind
  lb : Option ℚ
  ub : Option ℚ
deriving DecidableEq, Repr

/-- Modelled from the spec: relational operators of a constraint (§3). -/
inductive Rel where
  | le
  | eq
  | ge
deriving DecidableEq, Repr

/-- Modelled from the spec: a linear expression, i.e. a mapping from variable
id (list position) to coefficient plus a constant term (§3). -/
structure LinExpr where
  coeffs : List ℚ
  const : ℚ
deriving DecidableEq, Repr

/-- Modelled from the spec: a linear constraint (§3). -/
structure Ctr where
  expr : LinExpr
  rel : Rel
  rhs : ℚ
deriving DecidableEq, Repr

/-- Modelled from the spec: objective direction (§3). -/
inductive Direction where
  | minimize
  | maximize
deriving DecidableEq, Repr

/-- Modelled from the spec: the objective (§3). -/
structure Objective where
  dir : Direction
  expr : LinExpr
deriving DecidableEq, Repr

/-- Modelled from the spec: a named KPI expression (§3). -/
structure Kpi where
  name : String
  expr : LinExpr
deriving DecidableEq, Repr

/-- Modelled from the spec: a Model owns variables, constraints, an objective
and KPIs (§3). -/
structure Model where
  vars : List Variable
  constraints : List Ctr
  objective : Objective
  kpis : List Kpi
deriving DecidableEq, Repr

def numVars (m : Model) : ℕ := m.vars.length

/-- Value of a linear expression at an assignment (variable `i` is entry `i`). -/
def evalExpr (e : LinExpr) (x : List ℚ) : ℚ := dot e.coeffs x + e.const

/-- An assignment satisfies a single constraint. -/
def satCtr (x : List ℚ) (c : Ctr) : Prop :=
  match c.rel with
  | .le => evalExpr c.expr x ≤ c.rhs
  | .eq => evalExpr c.expr x = c.rhs
  | .ge => c.rhs ≤ evalExpr c.expr x

instance (x : List ℚ) (c : Ctr) : Decidable (satCtr x c) :=
  match c with
  | ⟨e, .le, b⟩ => inferInstanceAs (Decidable (evalExpr e x ≤ b))
  | ⟨e, .eq, b⟩ => inferInstanceAs (Decidable (evalExpr e x = b))
  | ⟨e, .ge, b⟩ => inferInstanceAs (Decidable (b ≤ evalExpr e x))

/-- The `≤`-rows encoding one constraint. -/
def ctrRows (c : Ctr) : List Row :=
  match c.rel with
  | .le => [⟨c.expr.coeffs, c.rhs - c.expr.const⟩]
  | .ge => [⟨negL c.expr.coeffs, c.expr.const - c.rhs⟩]
  | .eq => [⟨c.expr.coeffs, c.rhs - c.expr.const⟩, ⟨negL c.expr.coeffs, c.expr.const - c.rhs⟩]

theorem satSys_ctrRows_iff (c : Ctr) (x : List ℚ) :
    satSys (ctrRows c) x ↔ satCtr x c := by
  rcases c with ⟨e, rel, b⟩
  rcases rel with _ | _ | _
  · simp only [ctrRows, satCtr]
    simp [satSys, satRow, evalExpr]
    constructor <;> intro h <;> linarith
  · simp only [ctrRows, satCtr]
    simp [satSys, satRow, evalExpr, dot_negL]
    constructor
    · rintro ⟨h1, h2⟩
      linarith
    · intro h
      constructor <;> linarith
  · simp only [ctrRows, satCtr]
    simp [satSys, satRow, evalExpr, dot_negL]
    constructor <;> intro h <;> linarith

/-- Coefficient list that is `a` at position `i` and `0` elsewhere (length `n`
when `i < n`). -/
def stdRow (n i : ℕ) (a : ℚ) : List ℚ :=
  List.replicate i 0 ++ a :: List.replicate (n - i - 1) 0

theorem length_stdRow {n i : ℕ} (a : ℚ) (h : i < n) : (stdRow n i a).length = n := by
  simp [stdRow]
  omega

theorem dot_replicate_zero : ∀ (k : ℕ) (x : List ℚ), dot (List.replicate k 0) x = 0
  | 0, x => by simp
  | _ + 1, [] => by simp
  | k + 1, x :: xs => by
    simp [List.replicate_succ, dot_cons, dot_replicate_zero k xs]

theorem dot_stdRow : ∀ (i : ℕ) (x : List ℚ) (n : ℕ) (a : ℚ), i < x.length →
    dot (stdRow n i a) x = a * x.getD i 0
  | 0, x :: xs, n, a, _ => by
    simp [stdRow, dot_cons, dot_replicate_zero]
  | i + 1, x :: xs, n, a, h => by
    have hrw : stdRow n (i + 1) a = 0 :: stdRow (n - 1) i a := by
      simp [stdRow, List.replicate_succ]
      omega
    rw [hrw, dot_cons, dot_stdRow i xs (n - 1) a (by simpa using h)]
    simp

/-- Rows encoding the bounds of variable `i`. -/
def varRows (n i : ℕ) (v : Variable) : List Row :=
  (match v.lb with
   | none => []
   | some l => [⟨stdRow n i (-1), -l⟩]) ++
  (match v.ub with
   | none => []
   | some u => [⟨stdRow n i 1, u⟩])

/-- The lower bound of variable `i` holds at an assignment. -/
def lbOk (x : List ℚ) (i : ℕ) (v : Variable) : Prop :=
  match v.lb with
  | none => True
  | some l => l ≤ x.getD i 0

/-- The upper bound of variable `i` holds at an assignment. -/
def ubOk (x : List ℚ) (i : ℕ) (v : Variable) : Prop :=
  match v.ub with
  | none => True
  | some u => x.getD i 0 ≤ u

instance (x : List ℚ) (i : ℕ) (v : Variable) : Decidable (lbOk x i v) :=
  match v with
  | ⟨_, none, _⟩ => inferInstanceAs (Decidable True)
  | ⟨_, some l, _⟩ => inferInstanceAs (Decidable (l ≤ x.getD i 0))

instance (x : List ℚ) (i : ℕ) (v : Variable) : Decidable (ubOk x i v) :=
  match v with
  | ⟨_, _, none⟩ => inferInstanceAs (Decidable True)
  | ⟨_, _, some u⟩ => inferInstanceAs (Decidable (x.getD i 0 ≤ u))

theorem satSys_varRows_iff {n i : ℕ} {v : Variable} {x : List ℚ} (hi : i < x.length) :
    satSys (varRows n i v) x ↔ lbOk x i v ∧ ubOk x i v := by
  rcases v with ⟨k, lb, ub⟩
  rcases lb with _ | l <;> rcases ub with _ | u <;>
    simp [varRows, lbOk, ubOk, satSys, satRow, dot_stdRow _ _ _ _ hi] <;>
    constructor <;> intro h <;> first
      | linarith
      | (constructor <;> linarith)
      | (rcases h with ⟨h1, h2⟩; constructor <;> linarith)

/-- Bound rows for a tail of the variable list starting at index `i`. -/
def boundRowsFrom (n : ℕ) : ℕ → List Variable → List Row
  | _, [] => []
  | i, v :: vs => varRows n i v ++ boundRowsFrom n (i + 1) vs

/-- All variable bounds hold, for a tail of the variable list. -/
def BoundsOkFrom (x : List ℚ) : ℕ → List Variable → Prop
  | _, [] => True
  | i, v :: vs => (lbOk x i v ∧ ubOk x i v) ∧ BoundsOkFrom x (i + 1) vs

instance boundsOkDec (x : List ℚ) : ∀ (i : ℕ) (vs : List Variable),
    Decidable (BoundsOkFrom x i vs)
  | _, [] => isTrue trivial
  | i, v :: vs =>
    haveI := boundsOkDec x (i + 1) vs
    inferInstanceAs (Decidable (_ ∧ _))

theorem satSys_boundRowsFrom_iff {n : ℕ} {x : List ℚ} (hx : x.length = n) :
    ∀ (i : ℕ) (vs : List Variable), i + vs.length ≤ n →
      (satSys (boundRowsFrom n i vs) x ↔ BoundsOkFrom x i vs)
  | i, [], _ => by
    show satSys [] x ↔ True
    simp [satSys]
  | i, v :: vs, h => by
    show satSys (varRows n i v ++ boundRowsFrom n (i + 1) vs) x ↔
      (lbOk x i v ∧ ubOk x i v) ∧ BoundsOkFrom x (i + 1) vs
    rw [satSys_append, satSys_varRows_iff (by simp at h; omega),
      satSys_boundRowsFrom_iff hx (i + 1) vs (by simp at h; omega)]

/-- All rows of a model: constraint rows then variable-bound rows. -/
def baseRows (m : Model) : List Row :=
  m.constraints.flatMap ctrRows ++ boundRowsFrom (numVars m) 0 m.vars

theorem satSys_flatMap_ctrRows_iff {cts : List Ctr} {x : List ℚ} :
    satSys (cts.flatMap ctrRows) x ↔ ∀ c ∈ cts, satCtr x c := by
  constructor
  · intro h c hc
    rw [← satSys_ctrRows_iff]
    intro r hr
    exact h r (List.mem_flatMap.mpr ⟨c, hc, hr⟩)
  · intro h r hr
    rcases List.mem_flatMap.mp hr with ⟨c, hc, hrc⟩
    exact (satSys_ctrRows_iff c x).mpr (h c hc) r hrc

theorem satBase_iff {m : Model} {x : List ℚ} (hx : x.length = numVars m) :
    satSys (baseRows m) x ↔
      (∀ c ∈ m.constraints, satCtr x c) ∧ BoundsOkFrom x 0 m.vars := by
  rw [baseRows, satSys_append, satSys_flatMap_ctrRows_iff,
    satSys_boundRowsFrom_iff hx 0 m.vars (by simp [numVars])]

/-- Well-formedness of a model: every coefficient list has full length. -/
def MWf (m : Model) : Prop :=
  (∀ c ∈ m.constraints, c.expr.coeffs.length = numVars m) ∧
    m.objective.expr.coeffs.length = numVars m

instance (m : Model) : Decidable (MWf m) := by
  unfold MWf
  infer_instance

theorem rowsWf_ctrRows {n : ℕ} {c : Ctr} (h : c.expr.coeffs.length = n) :
    RowsWf n (ctrRows c) := by
  intro r hr
  rcases c with ⟨e, rel, b⟩
  rcases rel with _ | _ | _ <;> simp [ctrRows] at hr <;>
    first
      | (rw [hr]; simpa [negL] using h)
      | (rcases hr with hr | hr <;> rw [hr] <;> simpa [negL] using h)

theorem rowsWf_varRows {n i : ℕ} {v : Variable} (hi : i < n) :
    RowsWf n (varRows n i v) := by
  intro r hr
  rcases v with ⟨k, lb, ub⟩
  rcases lb with _ | l <;> rcases ub with _ | u <;> simp [varRows] at hr <;>
    first
      | (rw [hr]; exact length_stdRow _ hi)
      | (rcases hr with hr | hr <;> rw [hr] <;> exact length_stdRow _ hi)

theorem rowsWf_boundRowsFrom (n : ℕ) : ∀ (i : ℕ) (vs : List Variable),
    i + vs.length ≤ n → RowsWf n (boundRowsFrom n i vs)
  | _, [], _ => by intro r hr; simp [boundRowsFrom] at hr
  | i, v :: vs, h => by
    show RowsWf n (varRows n i v ++ boundRowsFrom n (i + 1) vs)
    apply rowsWf_append
    · exact rowsWf_varRows (by simp at h; omega)
    · exact rowsWf_boundRowsFrom n (i + 1) vs (by simp at h; omega)

theorem rowsWf_baseRows {m : Model} (h : MWf m) : RowsWf (numVars m) (baseRows m) := by
  apply rowsWf_append
  · intro r hr
    rcases List.mem_flatMap.mp hr with ⟨c, hc, hrc⟩
    exact rowsWf_ctrRows (h.1 c hc) r hrc
  · exact rowsWf_boundRowsFrom _ 0 m.vars (by simp [numVars])

/-! ### Integer feasibility and the branch-and-bound engine -/

/-- A rational value is integral. -/
def isIntQ (q : ℚ) : Prop := q.den = 1

instance (q : ℚ) : Decidable (isIntQ q) := inferInstanceAs (Decidable (q.den = 1))

/-- The variable record at index `j` (a free continuous variable if out of
range). -/
def varAt (m : Model) (j : ℕ) : Variable := m.vars.getD j ⟨.continuous, none, none⟩

/-- Every integer/binary variable takes an integral value. -/
def IntAsn (m : Model) (x : List ℚ) : Prop :=
  ∀ j < numVars m, (varAt m j).kind ≠ .continuous → isIntQ (x.getD j 0)

instance (m : Model) (x : List ℚ) : Decidable (IntAsn m x) := by
  unfold IntAsn
  infer_instance

/-- A mixed-integer feasible assignment of the model. -/
def MixFeas (m : Model) (x : List ℚ) : Prop :=
  x.length = numVars m ∧ satSys (baseRows m) x ∧ IntAsn m x

instance (m : Model) (x : List ℚ) : Decidable (MixFeas m x) := by
  unfold MixFeas
  infer_instance

/-- Internal objective vector, negated for a maximize objective so that the
engine always minimizes. -/
def objVec (m : Model) : List ℚ :=
  match m.objective.dir with
  | .minimize => m.objective.expr.coeffs
  | .maximize => negL m.objective.expr.coeffs

theorem length_objVec {m : Model} (h : MWf m) : (objVec m).length = numVars m := by
  rw [objVec]
  rcases m.objective.dir with _ | _
  · exact h.2
  · simpa [negL] using h.2

/-- Modelled from the spec: solver statuses (§3 Solution). -/
inductive Status where
  | optimal
  | infeasible
  | unbounded
  | stoppedAtLimit
deriving DecidableEq, Repr

/-- Modelled from the spec: a Solution (§3) records the status, the variable
values, the achieved objective value, and a snapshot of the model's variable
and constraint sets (used to detect stale solutions in `evaluate`). -/
structure Solution where
  status : Status
  values : List ℚ
  objectiveValue : ℚ
  snapVars : List Variable
  snapCtrs : List Ctr
deriving DecidableEq, Repr

/-- Build a solution for model `m`: the stored objective value is always the
objective expression evaluated at the stored assignment. -/
def mkSol (m : Model) (st : Status) (x : List ℚ) : Solution :=
  ⟨st, x, evalExpr m.objective.expr x, m.vars, m.constraints⟩

/-- Fractionality score: distance of the value from the nearest half-integer
midpoint; smaller means closer to one half, i.e. more fractional. -/
def fracScore (q : ℚ) : ℚ := |q - (⌊q⌋ : ℚ) - 1/2|

/-- Indices of integer-kind variables with a fractional value. -/
def fracCands (m : Model) (x : List ℚ) : List ℕ :=
  (List.range (numVars m)).filter fun j =>
    decide ((varAt m j).kind ≠ .continuous) && decide (¬ isIntQ (x.getD j 0))

def argminFrom (f : ℕ → ℚ) : ℕ → List ℕ → ℕ
  | b, [] => b
  | b, j :: js => if f j < f b then argminFrom f j js else argminFrom f b js

/-- Modelled from the spec: branching variable selection (§4.4): the
most-fractional integer/binary variable, ties broken by lowest index. -/
def branchVar (m : Model) (x : List ℚ) : Option ℕ :=
  match fracCands m x with
  | [] => none
  | j :: js => some (argminFrom (fun i => fracScore (x.getD i 0)) j js)

theorem argminFrom_mem (f : ℕ → ℚ) : ∀ (b : ℕ) (js : List ℕ), argminFrom f b js ∈ b :: js
  | _, [] => List.mem_cons_self _ _
  | b, j :: js => by
    rw [argminFrom]
    split_ifs with h
    · have := argminFrom_mem f j js
      rcases List.mem_cons.mp this with h' | h'
      · rw [h']
        simp
      · simp [h']
    · have := argminFrom_mem f b js
      rcases List.mem_cons.mp this with h' | h'
      · rw [h']
        simp
      · simp [h']

theorem mem_fracCands_iff {m : Model} {x : List ℚ} {j : ℕ} :
    j ∈ fracCands m x ↔
      j < numVars m ∧ (varAt m j).kind ≠ .continuous ∧ ¬ isIntQ (x.getD j 0) := by
  simp [fracCands, List.mem_filter, List.mem_range, and_assoc]

theorem branchVar_some_spec {m : Model} {x : List ℚ} {j : ℕ}
    (h : branchVar m x = some j) :
    j < numVars m ∧ (varAt m j).kind ≠ .continuous ∧ ¬ isIntQ (x.getD j 0) := by
  rw [← mem_fracCands_iff]
  rw [branchVar] at h
  cases hc : fracCands m x with
  | nil => rw [hc] at h; exact absurd h (by simp)
  | cons a js =>
    rw [hc] at h
    have hj : argminFrom (fun i => fracScore (x.getD i 0)) a js = j := Option.some.inj h
    cases hj
    exact argminFrom_mem _ a js

theorem branchVar_none_intAsn {m : Model} {x : List ℚ}
    (h : branchVar m x = none) : IntAsn m x := by
  intro j hj hk
  by_contra hint
  have hmem : j ∈ fracCands m x := mem_fracCands_iff.mpr ⟨hj, hk, hint⟩
  rw [branchVar] at h
  cases hc : fracCands m x with
  | nil => rw [hc] at hmem; exact absurd hmem (List.not_mem_nil _)
  | cons a js => rw [hc] at h; exact absurd h (by simp)

/-- Prune test (§4.4): the relaxed bound cannot beat the incumbent. -/
def pruneChk (m : Model) (inc : Option (List ℚ)) (x : List ℚ) : Bool :=
  match inc with
  | none => false
  | some y => decide (dot (objVec m) y ≤ dot (objVec m) x)

/-- Incumbent update (§4.4): keep the strictly better assignment. -/
def updateInc (m : Model) (inc : Option (List ℚ)) (x : List ℚ) : List ℚ :=
  match inc with
  | none => x
  | some y => if dot (objVec m) x < dot (objVec m) y then x else y

/-- The child row bounding the branched variable above: `x j ≤ ⌊q⌋`. -/
def childRowLo (n j : ℕ) (q : ℚ) : Row := ⟨stdRow n j 1, (⌊q⌋ : ℚ)⟩

/-- The child row bounding the branched variable below: `x j ≥ ⌊q⌋ + 1`. -/
def childRowHi (n j : ℕ) (q : ℚ) : Row := ⟨stdRow n j (-1), -((⌊q⌋ : ℚ) + 1)⟩

/-- Modelled from the spec: the Branch-and-Bound Engine's state machine
(§4.4).  `fuel` is the configured node budget; the work list is a LIFO stack
(depth-first); each node carries the extra bound rows accumulated by
branching; exhausting the budget returns `stoppedAtLimit`. -/
def bnbGo (m : Model) : ℕ → List (List Row) → Option (List ℚ) → Solution
  | _, [], none => mkSol m .infeasible []
  | _, [], some x => mkSol m .optimal x
  | 0, _ :: _, inc => mkSol m .stoppedAtLimit (inc.getD [])
  | fuel + 1, node :: rest, inc =>
    match lpSolve (numVars m) (baseRows m ++ node) (objVec m) with
    | .infeasible => bnbGo m fuel rest inc
    | .unbounded => mkSol m .unbounded []
    | .optimal x =>
      if pruneChk m inc x then bnbGo m fuel rest inc
      else
        match branchVar m x with
        | none => bnbGo m fuel rest (some (updateInc m inc x))
        | some j =>
          bnbGo m fuel
            ((node ++ [childRowLo (numVars m) j (x.getD j 0)]) ::
              (node ++ [childRowHi (numVars m) j (x.getD j 0)]) :: rest) inc

/-- Modelled from the spec: `Model.solve` (§4.2), delegating to the
Branch-and-Bound Engine on the root node with node budget `fuel`. -/
def solve (m : Model) (fuel : ℕ) : Solution := bnbGo m fuel [[]] none

theorem bnbGo_nil_none (m : Model) (fuel : ℕ) :
    bnbGo m fuel [] none = mkSol m .infeasible [] := by cases fuel <;> rfl

theorem bnbGo_nil_some (m : Model) (fuel : ℕ) (x : List ℚ) :
    bnbGo m fuel [] (some x) = mkSol m .optimal x := by cases fuel <;> rfl

theorem bnbGo_zero_cons (m : Model) (node : List Row) (rest : List (List Row))
    (inc : Option (List ℚ)) :
    bnbGo m 0 (node :: rest) inc = mkSol m .stoppedAtLimit (inc.getD []) := rfl

theorem bnbGo_succ_infeasible {m : Model} {node : List Row} (fuel : ℕ)
    (rest : List (List Row)) (inc : Option (List ℚ))
    (h : lpSolve (numVars m) (baseRows m ++ node) (objVec m) = .infeasible) :
    bnbGo m (fuel + 1) (node :: rest) inc = bnbGo m fuel rest inc := by
  rw [bnbGo, h]

theorem bnbGo_succ_unbounded {m : Model} {node : List Row} (fuel : ℕ)
    (rest : List (List Row)) (inc : Option (List ℚ))
    (h : lpSolve (numVars m) (baseRows m ++ node) (objVec m) = .unbounded) :
    bnbGo m (fuel + 1) (node :: rest) inc = mkSol m .unbounded [] := by
  rw [bnbGo, h]

theorem bnbGo_succ_pruned {m : Model} {node : List Row} {x : List ℚ} (fuel : ℕ)
    (rest : List (List Row)) (inc : Option (List ℚ))
    (h : lpSolve (numVars m) (baseRows m ++ node) (objVec m) = .optimal x)
    (hpr : pruneChk m inc x = true) :
    bnbGo m (fuel + 1) (node :: rest) inc = bnbGo m fuel rest inc := by
  rw [bnbGo, h]
  simp [hpr]

theorem bnbGo_succ_incumbent {m : Model} {node : List Row} {x : List ℚ} (fuel : ℕ)
    (rest : List (List Row)) (inc : Option (List ℚ))
    (h : lpSolve (numVars m) (baseRows m ++ node) (objVec m) = .optimal x)
    (hpr : pruneChk m inc x = false) (hbv : branchVar m x = none) :
    bnbGo m (fuel + 1) (node :: rest) inc =
      bnbGo m fuel rest (some (updateInc m inc x)) := by
  rw [bnbGo, h]
  simp [hpr, hbv]

theorem bnbGo_succ_branch {m : Model} {node : List Row} {x : List ℚ} {j : ℕ} (fuel : ℕ)
    (rest : List (List Row)) (inc : Option (List ℚ))
    (h : lpSolve (numVars m) (baseRows m ++ node) (objVec m) = .optimal x)
    (hpr : pruneChk m inc x = false) (hbv : branchVar m x = some j) :
    bnbGo m (fuel + 1) (node :: rest) inc =
      bnbGo m fuel
        ((node ++ [childRowLo (numVars m) j (x.getD j 0)]) ::
          (node ++ [childRowHi (numVars m) j (x.getD j 0)]) :: rest) inc := by
  rw [bnbGo, h]
  simp [hpr, hbv]

theorem bnbGo_shape (m : Model) : ∀ (fuel : ℕ) (stack : List (List Row))
    (inc : Option (List ℚ)), ∃ st x, bnbGo m fuel stack inc = mkSol m st x
  | fuel, [], none => ⟨.infeasible, [], bnbGo_nil_none m fuel⟩
  | fuel, [], some x => ⟨.optimal, x, bnbGo_nil_some m fuel x⟩
  | 0, _ :: _, inc => ⟨.stoppedAtLimit, inc.getD [], rfl⟩
  | fuel + 1, node :: rest, inc => by
    cases hlp : lpSolve (numVars m) (baseRows m ++ node) (objVec m) with
    | infeasible =>
      rw [bnbGo_succ_infeasible fuel rest inc hlp]
      exact bnbGo_shape m fuel rest inc
    | unbounded =>
      rw [bnbGo_succ_unbounded fuel rest inc hlp]
      exact ⟨.unbounded, [], rfl⟩
    | optimal x =>
      cases hpr : pruneChk m inc x with
      | true =>
        rw [bnbGo_succ_pruned fuel rest inc hlp hpr]
        exact bnbGo_shape m fuel rest inc
      | false =>
        cases hbv : branchVar m x with
        | none =>
          rw [bnbGo_succ_incumbent fuel rest inc hlp hpr hbv]
          exact bnbGo_shape m fuel rest (some (updateInc m inc x))
        | some j =>
          rw [bnbGo_succ_branch fuel rest inc hlp hpr hbv]
          exact bnbGo_shape m fuel
            ((node ++ [childRowLo (numVars m) j (x.getD j 0)]) ::
              (node ++ [childRowHi (numVars m) j (x.getD j 0)]) :: rest) inc

/-! ### Correctness of the engine -/

theorem pruneChk_true_spec {m : Model} {inc : Option (List ℚ)} {x : List ℚ}
    (h : pruneChk m inc x = true) :
    ∃ z, inc = some z ∧ dot (objVec m) z ≤ dot (objVec m) x := by
  cases inc with
  | none => simp [pruneChk] at h
  | some z =>
    refine ⟨z, rfl, ?_⟩
    simpa [pruneChk] using h

theorem updateInc_le_x {m : Model} {inc : Option (List ℚ)} {x : List ℚ} :
    dot (objVec m) (updateInc m inc x) ≤ dot (objVec m) x := by
  cases inc with
  | none => simp [updateInc]
  | some z =>
    rw [updateInc]
    split_ifs with h
    · exact le_refl _
    · exact le_of_not_lt h

theorem updateInc_le_old {m : Model} {inc : Option (List ℚ)} {x z : List ℚ}
    (h : inc = some z) :
    dot (objVec m) (updateInc m inc x) ≤ dot (objVec m) z := by
  subst h
  rw [updateInc]
  split_ifs with h
  · exact le_of_lt h
  · exact le_refl _

theorem updateInc_cases {m : Model} {inc : Option (List ℚ)} {x : List ℚ} :
    updateInc m inc x = x ∨ ∃ z, inc = some z ∧ updateInc m inc x = z := by
  cases inc with
  | none => exact Or.inl rfl
  | some z =>
    rw [updateInc]
    split_ifs with h
    · exact Or.inl rfl
    · exact Or.inr ⟨z, rfl, rfl⟩

theorem intAsn_int_val {m : Model} {x : List ℚ} (h : IntAsn m x) {j : ℕ}
    (hj : j < numVars m) (hk : (varAt m j).kind ≠ .continuous) :
    ∃ k : ℤ, x.getD j 0 = (k : ℚ) :=
  ⟨(x.getD j 0).num, (Rat.coe_int_num_of_den_eq_one (h j hj hk)).symm⟩

theorem child_cover {m : Model} {x y : List ℚ} {j : ℕ}
    (hj : j < numVars m) (hk : (varAt m j).kind ≠ .continuous)
    (hy : IntAsn m y) (hylen : y.length = numVars m) :
    satRow y (childRowLo (numVars m) j (x.getD j 0)) ∨
      satRow y (childRowHi (numVars m) j (x.getD j 0)) := by
  obtain ⟨k, hkeq⟩ := intAsn_int_val hy hj hk
  have hjy : j < y.length := by omega
  have hdl : dot (stdRow (numVars m) j 1) y = y.getD j 0 := by
    rw [dot_stdRow j y _ 1 hjy]
    ring
  have hdh : dot (stdRow (numVars m) j (-1)) y = -(y.getD j 0) := by
    rw [dot_stdRow j y _ (-1) hjy]
    ring
  rcases Int.le_or_lt k ⌊x.getD j 0⌋ with hle | hlt
  · left
    rw [satRow, childRowLo, hdl, hkeq]
    show (k : ℚ) ≤ ((⌊x.getD j 0⌋ : ℤ) : ℚ)
    exact_mod_cast hle
  · right
    rw [satRow, childRowHi, hdh, hkeq]
    show -(k : ℚ) ≤ -(((⌊x.getD j 0⌋ : ℤ) : ℚ) + 1)
    have h1 : (⌊x.getD j 0⌋ + 1 : ℤ) ≤ k := hlt
    have h2 : ((⌊x.getD j 0⌋ : ℚ) + 1) ≤ (k : ℚ) := by exact_mod_cast h1
    linarith

/-- The central invariant of the Branch-and-Bound Engine: if the incumbent is
always an integer-feasible assignment, and every integer-feasible assignment
is either dominated by the incumbent or lives in some pending node, then an
`optimal` result is a minimal integer-feasible assignment, an `infeasible`
result means no integer-feasible assignment exists, and an `unbounded` result
exhibits relaxation-feasible points of arbitrarily low objective. -/
theorem bnbGo_correct (m : Model) (hwf : MWf m) :
    ∀ (fuel : ℕ) (stack : List (List Row)) (inc : Option (List ℚ)),
      (∀ node ∈ stack, RowsWf (numVars m) node) →
      (∀ z, inc = some z → MixFeas m z) →
      (∀ y, MixFeas m y →
        (∃ z, inc = some z ∧ dot (objVec m) z ≤ dot (objVec m) y) ∨
          ∃ node ∈ stack, satSys (baseRows m ++ node) y) →
      ((bnbGo m fuel stack inc).status = .optimal →
          MixFeas m (bnbGo m fuel stack inc).values ∧
          ∀ y, MixFeas m y →
            dot (objVec m) (bnbGo m fuel stack inc).values ≤ dot (objVec m) y) ∧
      ((bnbGo m fuel stack inc).status = .infeasible → ∀ y, ¬ MixFeas m y) ∧
      ((bnbGo m fuel stack inc).status = .unbounded →
          ∀ B : ℚ, ∃ y, y.length = numVars m ∧ satSys (baseRows m) y ∧
            dot (objVec m) y ≤ B)
  | fuel, [], none, hstack, hinc, hcover => by
    rw [bnbGo_nil_none]
    refine ⟨fun h => absurd h (by simp [mkSol]), fun _ y hy => ?_,
      fun h => absurd h (by simp [mkSol])⟩
    rcases hcover y hy with ⟨z, hz, _⟩ | ⟨nd, hnd, _⟩
    · exact absurd hz (by simp)
    · exact absurd hnd (List.not_mem_nil _)
  | fuel, [], some x, hstack, hinc, hcover => by
    rw [bnbGo_nil_some]
    refine ⟨fun _ => ⟨hinc x rfl, fun y hy => ?_⟩,
      fun h => absurd h (by simp [mkSol]), fun h => absurd h (by simp [mkSol])⟩
    rcases hcover y hy with ⟨z, hz, hzy⟩ | ⟨nd, hnd, _⟩
    · cases Option.some.inj hz
      exact hzy
    · exact absurd hnd (List.not_mem_nil _)
  | 0, node :: rest, inc, hstack, hinc, hcover => by
    rw [bnbGo_zero_cons]
    exact ⟨fun h => absurd h (by simp [mkSol]), fun h => absurd h (by simp [mkSol]),
      fun h => absurd h (by simp [mkSol])⟩
  | fuel + 1, node :: rest, inc, hstack, hinc, hcover => by
    have hwfnode : RowsWf (numVars m) node := hstack node (List.mem_cons_self _ _)
    have hwfrows : RowsWf (numVars m) (baseRows m ++ node) :=
      rowsWf_append (rowsWf_baseRows hwf) hwfnode
    have hlenc : (objVec m).length = numVars m := length_objVec hwf
    cases hlp : lpSolve (numVars m) (baseRows m ++ node) (objVec m) with
    | infeasible =>
      rw [bnbGo_succ_infeasible fuel rest inc hlp]
      apply bnbGo_correct m hwf fuel rest inc
        (fun nd hnd => hstack nd (List.mem_cons_of_mem _ hnd)) hinc
      intro y hy
      rcases hcover y hy with hleft | ⟨nd, hnd, hsat⟩
      · exact Or.inl hleft
      · rcases List.mem_cons.mp hnd with rfl | hnd
        · exact absurd hsat (lpSolve_infeasible_spec hwfrows hlenc hlp y hy.1)
        · exact Or.inr ⟨nd, hnd, hsat⟩
    | unbounded =>
      rw [bnbGo_succ_unbounded fuel rest inc hlp]
      refine ⟨fun h => absurd h (by simp [mkSol]), fun h => absurd h (by simp [mkSol]),
        fun _ B => ?_⟩
      obtain ⟨y, hl, hs, hd⟩ := lpSolve_unbounded_spec hwfrows hlenc hlp B
      exact ⟨y, hl, (satSys_append.mp hs).1, hd⟩
    | optimal x =>
      have hx := lpSolve_optimal_spec hwfrows hlenc hlp
      cases hpr : pruneChk m inc x with
      | true =>
        rw [bnbGo_succ_pruned fuel rest inc hlp hpr]
        apply bnbGo_correct m hwf fuel rest inc
          (fun nd hnd => hstack nd (List.mem_cons_of_mem _ hnd)) hinc
        intro y hy
        rcases hcover y hy with hleft | ⟨nd, hnd, hsat⟩
        · exact Or.inl hleft
        · rcases List.mem_cons.mp hnd with rfl | hnd
          · obtain ⟨z, hz, hzx⟩ := pruneChk_true_spec hpr
            exact Or.inl ⟨z, hz, le_trans hzx (hx.2.2.2 y hy.1 hsat)⟩
          · exact Or.inr ⟨nd, hnd, hsat⟩
      | false =>
        cases hbv : branchVar m x with
        | none =>
          rw [bnbGo_succ_incumbent fuel rest inc hlp hpr hbv]
          have hxfeas : MixFeas m x :=
            ⟨hx.1, (satSys_append.mp hx.2.1).1, branchVar_none_intAsn hbv⟩
          apply bnbGo_correct m hwf fuel rest (some (updateInc m inc x))
            (fun nd hnd => hstack nd (List.mem_cons_of_mem _ hnd))
          · intro z hz
            cases Option.some.inj hz
            rcases @updateInc_cases m inc x with hu | ⟨z', hz', hu⟩
            · rw [hu]; exact hxfeas
            · rw [hu]; exact hinc z' hz'
          · intro y hy
            rcases hcover y hy with ⟨z, hz, hzy⟩ | ⟨nd, hnd, hsat⟩
            · exact Or.inl ⟨updateInc m inc x, rfl, le_trans (updateInc_le_old hz) hzy⟩
            · rcases List.mem_cons.mp hnd with rfl | hnd
              · exact Or.inl ⟨updateInc m inc x, rfl,
                  le_trans updateInc_le_x (hx.2.2.2 y hy.1 hsat)⟩
              · exact Or.inr ⟨nd, hnd, hsat⟩
        | some j =>
          rw [bnbGo_succ_branch fuel rest inc hlp hpr hbv]
          obtain ⟨hjn, hjk, hjfrac⟩ := branchVar_some_spec hbv
          apply bnbGo_correct m hwf fuel _ inc ?_ hinc
          · intro y hy
            rcases hcover y hy with hleft | ⟨nd, hnd, hsat⟩
            · exact Or.inl hleft
            · rcases List.mem_cons.mp hnd with rfl | hnd
              · have hbase := (satSys_append.mp hsat).1
                have hnodey := (satSys_append.mp hsat).2
                rcases child_cover (x := x) hjn hjk hy.2.2 hy.1 with hc | hc
                · refine Or.inr ⟨nd ++ [childRowLo (numVars m) j (x.getD j 0)],
                    List.mem_cons_self _ _, ?_⟩
                  rw [satSys_append]
                  refine ⟨hbase, ?_⟩
                  rw [satSys_append]
                  refine ⟨hnodey, ?_⟩
                  intro r hr
                  rcases List.mem_singleton.mp hr with rfl
                  exact hc
                · refine Or.inr ⟨nd ++ [childRowHi (numVars m) j (x.getD j 0)],
                    List.mem_cons_of_mem _ (List.mem_cons_self _ _), ?_⟩
                  rw [satSys_append]
                  refine ⟨hbase, ?_⟩
                  rw [satSys_append]
                  refine ⟨hnodey, ?_⟩
                  intro r hr
                  rcases List.mem_singleton.mp hr with rfl
                  exact hc
              · exact Or.inr ⟨nd, List.mem_cons_of_mem _ (List.mem_cons_of_mem _ hnd), hsat⟩
          · intro nd hnd
            rcases List.mem_cons.mp hnd with rfl | hnd
            · apply rowsWf_append hwfnode
              intro r hr
              rcases List.mem_singleton.mp hr with rfl
              exact length_stdRow _ hjn
            · rcases List.mem_cons.mp hnd with rfl | hnd
              · apply rowsWf_append hwfnode
                intro r hr
                rcases List.mem_singleton.mp hr with rfl
                exact length_stdRow _ hjn
              · exact hstack nd (List.mem_cons_of_mem _ hnd)

theorem solve_invariants {m : Model} (hwf : MWf m) (fuel : ℕ) :
    ((solve m fuel).status = .optimal →
        MixFeas m (solve m fuel).values ∧
        ∀ y, MixFeas m y →
          dot (objVec m) (solve m fuel).values ≤ dot (objVec m) y) ∧
    ((solve m fuel).status = .infeasible → ∀ y, ¬ MixFeas m y) ∧
    ((solve m fuel).status = .unbounded →
        ∀ B : ℚ, ∃ y, y.length = numVars m ∧ satSys (baseRows m) y ∧
          dot (objVec m) y ≤ B) := by
  apply bnbGo_correct m hwf fuel [[]] none
  · intro nd hnd
    rcases List.mem_singleton.mp hnd with rfl
    intro r hr
    exact absurd hr (List.not_mem_nil _)
  · intro z hz
    exact absurd hz (by simp)
  · intro y hy
    refine Or.inr ⟨[], List.mem_singleton.mpr rfl, ?_⟩
    rw [List.append_nil]
    exact hy.2.1

/-! ### Node budgets: the engine completes on binary-integer models -/

/-- Every integer-kind variable is binary with bounds `0` and `1`. -/
def BinInts (m : Model) : Prop :=
  ∀ j < numVars m, (varAt m j).kind ≠ .continuous →
    (varAt m j).lb = some 0 ∧ (varAt m j).ub = some 1

instance (m : Model) : Decidable (BinInts m) := by
  unfold BinInts
  infer_instance

/-- Variable `j` has been fixed to `0` or to `1` by a node's extra rows. -/
def fixedIn (n : ℕ) (node : List Row) (j : ℕ) : Prop :=
  (⟨stdRow n j 1, 0⟩ : Row) ∈ node ∨ (⟨stdRow n j (-1), -1⟩ : Row) ∈ node

instance (n : ℕ) (node : List Row) (j : ℕ) : Decidable (fixedIn n node j) := by
  unfold fixedIn
  infer_instance

/-- Number of integer-kind variables not fixed by a node. -/
def freeN (m : Model) (node : List Row) : ℕ :=
  ((List.range (numVars m)).filter fun j =>
    decide ((varAt m j).kind ≠ .continuous) &&
      decide (¬ fixedIn (numVars m) node j)).length

/-- Weight of a node: a bound on the number of engine steps it can cause. -/
def nodeW (m : Model) (node : List Row) : ℕ := 2 ^ (freeN m node + 1) - 1

/-- Total weight of the pending work list. -/
def stackW (m : Model) (stack : List (List Row)) : ℕ := (stack.map (nodeW m)).sum

theorem varRows_mem_boundRowsFrom (n : ℕ) (d : Variable) :
    ∀ (i : ℕ) (vs : List Variable) (j : ℕ), j < vs.length →
      ∀ r ∈ varRows n (i + j) (vs.getD j d), r ∈ boundRowsFrom n i vs
  | _, [], j, hj => by simp at hj
  | i, v :: vs, 0, _ => by
    intro r hr
    show r ∈ varRows n i v ++ boundRowsFrom n (i + 1) vs
    exact List.mem_append_left _ (by simpa using hr)
  | i, v :: vs, j + 1, hj => by
    intro r hr
    show r ∈ varRows n i v ++ boundRowsFrom n (i + 1) vs
    apply List.mem_append_right
    apply varRows_mem_boundRowsFrom n d (i + 1) vs j (by simpa using hj) r
    have heq : i + 1 + j = i + (j + 1) := by omega
    rw [heq]
    simpa using hr

theorem varAt_rows_mem {m : Model} {j : ℕ} (hj : j < numVars m) {r : Row}
    (hr : r ∈ varRows (numVars m) j (varAt m j)) : r ∈ baseRows m := by
  apply List.mem_append_right
  have := varRows_mem_boundRowsFrom (numVars m) ⟨.continuous, none, none⟩ 0 m.vars j hj r
  apply this
  simpa [varAt] using hr

theorem binVar_row_lb_mem {m : Model} (hb : BinInts m) {j : ℕ} (hj : j < numVars m)
    (hk : (varAt m j).kind ≠ .continuous) :
    (⟨stdRow (numVars m) j (-1), 0⟩ : Row) ∈ baseRows m := by
  obtain ⟨hlb, hub⟩ := hb j hj hk
  apply varAt_rows_mem hj
  rw [varRows, hlb, hub]
  simp

theorem binVar_row_ub_mem {m : Model} (hb : BinInts m) {j : ℕ} (hj : j < numVars m)
    (hk : (varAt m j).kind ≠ .continuous) :
    (⟨stdRow (numVars m) j 1, 1⟩ : Row) ∈ baseRows m := by
  obtain ⟨hlb, hub⟩ := hb j hj hk
  apply varAt_rows_mem hj
  rw [varRows, hlb, hub]
  simp

theorem binVar_bounds {m : Model} (hb : BinInts m) {node : List Row} {x : List ℚ}
    {j : ℕ} (hj : j < numVars m) (hk : (varAt m j).kind ≠ .continuous)
    (hx : satSys (baseRows m ++ node) x) (hxlen : x.length = numVars m) :
    0 ≤ x.getD j 0 ∧ x.getD j 0 ≤ 1 := by
  have hjx : j < x.length := by omega
  have h1 := hx _ (List.mem_append_left _ (binVar_row_lb_mem hb hj hk))
  have h2 := hx _ (List.mem_append_left _ (binVar_row_ub_mem hb hj hk))
  rw [satRow] at h1 h2
  rw [dot_stdRow j x _ _ hjx] at h1 h2
  have h1' : -x.getD j 0 ≤ 0 := by simpa using h1
  have h2' : x.getD j 0 ≤ 1 := by simpa using h2
  constructor <;> linarith

theorem binVar_bounds_base {m : Model} (hb : BinInts m) {x : List ℚ}
    {j : ℕ} (hj : j < numVars m) (hk : (varAt m j).kind ≠ .continuous)
    (hx : satSys (baseRows m) x) (hxlen : x.length = numVars m) :
    0 ≤ x.getD j 0 ∧ x.getD j 0 ≤ 1 :=
  @binVar_bounds m hb [] x j hj hk (by rwa [List.append_nil]) hxlen

theorem frac_floor_zero {q : ℚ} (h0 : 0 ≤ q) (h1 : q ≤ 1) (hf : ¬ isIntQ q) :
    ⌊q⌋ = 0 := by
  have hq1 : q ≠ 1 := by
    intro hq
    exact hf (by rw [hq]; rfl)
  rw [Int.floor_eq_zero_iff]
  exact ⟨h0, lt_of_le_of_ne h1 hq1⟩

theorem not_fixed_of_frac {m : Model} (hb : BinInts m) {node : List Row} {x : List ℚ}
    {j : ℕ} (hj : j < numVars m) (hk : (varAt m j).kind ≠ .continuous)
    (hx : satSys (baseRows m ++ node) x) (hxlen : x.length = numVars m)
    (hf : ¬ isIntQ (x.getD j 0)) : ¬ fixedIn (numVars m) node j := by
  have hjx : j < x.length := by omega
  obtain ⟨h0, h1⟩ := binVar_bounds hb hj hk hx hxlen
  rintro (hlo | hhi)
  · have hrow := hx _ (List.mem_append_right _ hlo)
    rw [satRow, dot_stdRow j x _ _ hjx] at hrow
    have hrow' : x.getD j 0 ≤ 0 := by simpa using hrow
    have hjeq : x.getD j 0 = 0 := by linarith
    exact hf (by rw [hjeq]; rfl)
  · have hrow := hx _ (List.mem_append_right _ hhi)
    rw [satRow, dot_stdRow j x _ _ hjx] at hrow
    have hrow' : -x.getD j 0 ≤ -1 := by simpa using hrow
    have hjeq : x.getD j 0 = 1 := by linarith
    exact hf (by rw [hjeq]; rfl)

theorem childRowLo_fixes {n j : ℕ} {q : ℚ} (hq : ⌊q⌋ = 0) :
    childRowLo n j q = ⟨stdRow n j 1, 0⟩ := by
  rw [childRowLo, hq]
  norm_num

theorem childRowHi_fixes {n j : ℕ} {q : ℚ} (hq : ⌊q⌋ = 0) :
    childRowHi n j q = ⟨stdRow n j (-1), -1⟩ := by
  rw [childRowHi, hq]
  norm_num

theorem length_filter_mono {α : Type} (p q : α → Bool) :
    ∀ l : List α, (∀ a ∈ l, p a = true → q a = true) →
      (l.filter p).length ≤ (l.filter q).length
  | [], _ => le_refl _
  | a :: l, h => by
    have ih := length_filter_mono p q l (fun b hb => h b (List.mem_cons_of_mem _ hb))
    by_cases hp : p a = true
    · rw [List.filter_cons_of_pos hp, List.filter_cons_of_pos (h a (List.mem_cons_self _ _) hp)]
      simpa using ih
    · rw [List.filter_cons_of_neg (by simpa using hp)]
      by_cases hq : q a = true
      · rw [List.filter_cons_of_pos hq]
        simp
        omega
      · rw [List.filter_cons_of_neg (by simpa using hq)]
        exact ih

theorem length_filter_lt {α : Type} (p q : α → Bool) :
    ∀ l : List α, (∀ a ∈ l, p a = true → q a = true) →
      ∀ a ∈ l, q a = true → p a = false →
        (l.filter p).length < (l.filter q).length
  | [], _, a, ha, _, _ => absurd ha (List.not_mem_nil _)
  | b :: l, himp, a, ha, hqa, hpa => by
    rcases List.mem_cons.mp ha with rfl | ha
    · rw [List.filter_cons_of_neg (by simp [hpa]), List.filter_cons_of_pos hqa]
      have := length_filter_mono p q l (fun c hc => himp c (List.mem_cons_of_mem _ hc))
      simp
      omega
    · by_cases hp : p b = true
      · rw [List.filter_cons_of_pos hp, List.filter_cons_of_pos (himp b (List.mem_cons_self _ _) hp)]
        have := length_filter_lt p q l (fun c hc => himp c (List.mem_cons_of_mem _ hc)) a ha hqa hpa
        simpa using this
      · rw [List.filter_cons_of_neg (by simpa using hp)]
        have := length_filter_lt p q l (fun c hc => himp c (List.mem_cons_of_mem _ hc)) a ha hqa hpa
        by_cases hq : q b = true
        · rw [List.filter_cons_of_pos hq]
          simp
          omega
        · rw [List.filter_cons_of_neg (by simpa using hq)]
          exact this

theorem freeN_append_lt {m : Model} {node rs : List Row} {j : ℕ}
    (hj : j < numVars m) (hk : (varAt m j).kind ≠ .continuous)
    (hnotfix : ¬ fixedIn (numVars m) node j)
    (hfix : fixedIn (numVars m) (node ++ rs) j) :
    freeN m (node ++ rs) < freeN m node := by
  apply length_filter_lt _ _ _ ?_ j (List.mem_range.mpr hj) ?_ ?_
  · intro a _ ha
    simp only [Bool.and_eq_true, decide_eq_true_eq] at ha ⊢
    refine ⟨ha.1, fun hfix' => ha.2 ?_⟩
    rcases hfix' with h | h
    · exact Or.inl (List.mem_append_left _ h)
    · exact Or.inr (List.mem_append_left _ h)
  · simp only [Bool.and_eq_true, decide_eq_true_eq]
    exact ⟨hk, hnotfix⟩
  · simp [hfix]

theorem freeN_le (m : Model) (node : List Row) : freeN m node ≤ numVars m := by
  calc freeN m node ≤ (List.range (numVars m)).length := List.length_filter_le _ _
  _ = numVars m := List.length_range _

theorem nodeW_pos (m : Model) (node : List Row) : 1 ≤ nodeW m node := by
  rw [nodeW]
  have h : 2 ≤ 2 ^ (freeN m node + 1) := by
    calc (2 : ℕ) = 2 ^ 1 := by norm_num
    _ ≤ 2 ^ (freeN m node + 1) := Nat.pow_le_pow_right (by norm_num) (by omega)
  omega

theorem nodeW_children_le {m : Model} {node rsA rsB : List Row}
    (hA : freeN m (node ++ rsA) < freeN m node)
    (hB : freeN m (node ++ rsB) < freeN m node) :
    nodeW m (node ++ rsA) + nodeW m (node ++ rsB) + 1 ≤ nodeW m node := by
  rw [nodeW, nodeW, nodeW]
  have h2 : (1 : ℕ) ≤ 2 ^ freeN m node := Nat.one_le_two_pow
  have hA2 : 2 ^ (freeN m (node ++ rsA) + 1) ≤ 2 ^ freeN m node :=
    Nat.pow_le_pow_right (by norm_num) (by omega)
  have hB2 : 2 ^ (freeN m (node ++ rsB) + 1) ≤ 2 ^ freeN m node :=
    Nat.pow_le_pow_right (by norm_num) (by omega)
  have hs : 2 ^ (freeN m node + 1) = 2 * 2 ^ freeN m node := by
    rw [pow_succ]
    ring
  have hA1 : (1:ℕ) ≤ 2 ^ (freeN m (node ++ rsA) + 1) := Nat.one_le_two_pow
  have hB1 : (1:ℕ) ≤ 2 ^ (freeN m (node ++ rsB) + 1) := Nat.one_le_two_pow
  omega

/-- With a node budget at least the total stack weight, the engine never has
to stop at the limit, provided every integer variable is binary. -/
theorem bnbGo_no_limit (m : Model) (hwf : MWf m) (hb : BinInts m) :
    ∀ (fuel : ℕ) (stack : List (List Row)) (inc : Option (List ℚ)),
      (∀ node ∈ stack, RowsWf (numVars m) node) →
      stackW m stack ≤ fuel →
      (bnbGo m fuel stack inc).status ≠ .stoppedAtLimit
  | fuel, [], none, _, _ => by
    rw [bnbGo_nil_none]
    simp [mkSol]
  | fuel, [], some x, _, _ => by
    rw [bnbGo_nil_some]
    simp [mkSol]
  | 0, node :: rest, inc, _, hW => by
    exfalso
    have h1 := nodeW_pos m node
    have h2 : stackW m (node :: rest) = nodeW m node + stackW m rest := by simp [stackW]
    omega
  | fuel + 1, node :: rest, inc, hstack, hW => by
    have hwfnode := hstack node (List.mem_cons_self _ _)
    have hwfrows : RowsWf (numVars m) (baseRows m ++ node) :=
      rowsWf_append (rowsWf_baseRows hwf) hwfnode
    have hlenc := length_objVec hwf
    have hWcons : stackW m (node :: rest) = nodeW m node + stackW m rest := by simp [stackW]
    have h1 := nodeW_pos m node
    have hrest : ∀ nd ∈ rest, RowsWf (numVars m) nd :=
      fun nd hnd => hstack nd (List.mem_cons_of_mem _ hnd)
    cases hlp : lpSolve (numVars m) (baseRows m ++ node) (objVec m) with
    | infeasible =>
      rw [bnbGo_succ_infeasible fuel rest inc hlp]
      exact bnbGo_no_limit m hwf hb fuel rest inc hrest (by omega)
    | unbounded =>
      rw [bnbGo_succ_unbounded fuel rest inc hlp]
      simp [mkSol]
    | optimal x =>
      have hx := lpSolve_optimal_spec hwfrows hlenc hlp
      cases hpr : pruneChk m inc x with
      | true =>
        rw [bnbGo_succ_pruned fuel rest inc hlp hpr]
        exact bnbGo_no_limit m hwf hb fuel rest inc hrest (by omega)
      | false =>
        cases hbv : branchVar m x with
        | none =>
          rw [bnbGo_succ_incumbent fuel rest inc hlp hpr hbv]
          exact bnbGo_no_limit m hwf hb fuel rest _ hrest (by omega)
        | some j =>
          rw [bnbGo_succ_branch fuel rest inc hlp hpr hbv]
          obtain ⟨hjn, hjk, hjfrac⟩ := branchVar_some_spec hbv
          obtain ⟨hx0, hx1⟩ := binVar_bounds hb hjn hjk hx.2.1 hx.1
          have hfl : ⌊x.getD j 0⌋ = 0 := frac_floor_zero hx0 hx1 hjfrac
          have hnotfix := not_fixed_of_frac hb hjn hjk hx.2.1 hx.1 hjfrac
          have hfixA : fixedIn (numVars m)
              (node ++ [childRowLo (numVars m) j (x.getD j 0)]) j := by
            left
            rw [← childRowLo_fixes hfl]
            exact List.mem_append_right _ (List.mem_singleton.mpr rfl)
          have hfixB : fixedIn (numVars m)
              (node ++ [childRowHi (numVars m) j (x.getD j 0)]) j := by
            right
            rw [← childRowHi_fixes hfl]
            exact List.mem_append_right _ (List.mem_singleton.mpr rfl)
          have hA := freeN_append_lt hjn hjk hnotfix hfixA
          have hB := freeN_append_lt hjn hjk hnotfix hfixB
          have hch := nodeW_children_le hA hB
          apply bnbGo_no_limit m hwf hb fuel _ inc
          · intro nd hnd
            rcases List.mem_cons.mp hnd with rfl | hnd
            · apply rowsWf_append hwfnode
              intro r hr
              rcases List.mem_singleton.mp hr with rfl
              exact length_stdRow _ hjn
            · rcases List.mem_cons.mp hnd with rfl | hnd
              · apply rowsWf_append hwfnode
                intro r hr
                rcases List.mem_singleton.mp hr with rfl
                exact length_stdRow _ hjn
              · exact hrest nd hnd
          · have h3 : stackW m
                ((node ++ [childRowLo (numVars m) j (x.getD j 0)]) ::
                  (node ++ [childRowHi (numVars m) j (x.getD j 0)]) :: rest) =
                nodeW m (node ++ [childRowLo (numVars m) j (x.getD j 0)]) +
                  (nodeW m (node ++ [childRowHi (numVars m) j (x.getD j 0)]) +
                    stackW m rest) := by
              simp [stackW]
            omega

/-- With enough budget, a solve on a binary-integer model never stops at the
limit. -/
theorem solve_no_limit {m : Model} (hwf : MWf m) (hb : BinInts m) {fuel : ℕ}
    (hfuel : 2 ^ (numVars m + 1) ≤ fuel) :
    (solve m fuel).status ≠ .stoppedAtLimit := by
  apply bnbGo_no_limit m hwf hb fuel [[]] none
  · intro nd hnd
    rcases List.mem_singleton.mp hnd with rfl
    intro r hr
    exact absurd hr (List.not_mem_nil _)
  · have h1 : freeN m [] ≤ numVars m := freeN_le m []
    have h2 : stackW m [[]] = nodeW m [] := by simp [stackW]
    have h3 : 2 ^ (freeN m [] + 1) ≤ 2 ^ (numVars m + 1) :=
      Nat.pow_le_pow_right (by norm_num) (by omega)
    rw [h2, nodeW]
    omega

/-! ### Boundedness of binary models and exhaustive enumeration -/

/-- Sum of the negative parts of a coefficient list: a lower bound for the
dot product against any point of the unit box. -/
def negPartSum : List ℚ → ℚ
  | [] => 0
  | a :: l => min a 0 + negPartSum l

theorem negPartSum_nonpos : ∀ l : List ℚ, negPartSum l ≤ 0
  | [] => le_refl _
  | a :: l => by
    have h1 := negPartSum_nonpos l
    have h2 : min a 0 ≤ 0 := min_le_right _ _
    rw [negPartSum]
    linarith

theorem negPartSum_le_dot : ∀ (c y : List ℚ),
    (∀ j < c.length, 0 ≤ y.getD j 0 ∧ y.getD j 0 ≤ 1) → negPartSum c ≤ dot c y
  | [], y, _ => by simp [negPartSum]
  | a :: c, [], _ => by
    have h1 := negPartSum_nonpos c
    have h2 : min a 0 ≤ 0 := min_le_right _ _
    rw [dot_nil_right, negPartSum]
    linarith
  | a :: c, y0 :: ys, h => by
    have h0 := h 0 (by simp)
    simp only [List.getD_cons_zero] at h0
    have ih := negPartSum_le_dot c ys (fun j hj => by
      have := h (j + 1) (by simpa using hj)
      simpa using this)
    rw [negPartSum, dot_cons]
    have hmin : min a 0 ≤ a * y0 := by
      rcases le_or_lt 0 a with ha | ha
      · have hnn : 0 ≤ a * y0 := mul_nonneg ha h0.1
        calc min a 0 ≤ 0 := min_le_right _ _
        _ ≤ a * y0 := hnn
      · have hprod : 0 ≤ (-a) * (1 - y0) := mul_nonneg (by linarith) (by linarith)
        have hexp : a ≤ a * y0 := by nlinarith [hprod]
        calc min a 0 ≤ a := min_le_left _ _
        _ ≤ a * y0 := hexp
    linarith

/-- Every variable of the model is a canonical binary variable. -/
def AllBinary (m : Model) : Prop :=
  ∀ v ∈ m.vars, v = ⟨.binary, some 0, some 1⟩

instance (m : Model) : Decidable (AllBinary m) := List.decidableBAll _ m.vars

theorem allBinary_varAt {m : Model} (h : AllBinary m) {j : ℕ} (hj : j < numVars m) :
    varAt m j = ⟨.binary, some 0, some 1⟩ := by
  rw [varAt, List.getD_eq_getElem?_getD]
  have hget : m.vars[j]? = some m.vars[j] := List.getElem?_eq_getElem hj
  rw [hget]
  exact h _ (List.getElem_mem hj)

theorem allBinary_binInts {m : Model} (h : AllBinary m) : BinInts m := by
  intro j hj _
  rw [allBinary_varAt h hj]
  exact ⟨rfl, rfl⟩

theorem allBinary_kind {m : Model} (h : AllBinary m) {j : ℕ} (hj : j < numVars m) :
    (varAt m j).kind ≠ .continuous := by
  rw [allBinary_varAt h hj]
  simp

theorem allBinary_not_unbounded {m : Model} (hwf : MWf m) (hab : AllBinary m)
    (fuel : ℕ) : (solve m fuel).status ≠ .unbounded := by
  intro h
  obtain ⟨y, hl, hs, hd⟩ :=
    (solve_invariants hwf fuel).2.2 h (negPartSum (objVec m) - 1)
  have hbounds : ∀ j < (objVec m).length, 0 ≤ y.getD j 0 ∧ y.getD j 0 ≤ 1 := by
    intro j hj
    have hj' : j < numVars m := by rw [← length_objVec hwf]; exact hj
    exact binVar_bounds_base (allBinary_binInts hab) hj' (allBinary_kind hab hj') hs hl
  have := negPartSum_le_dot (objVec m) y hbounds
  linarith

theorem int_zero_or_one {q : ℚ} (hint : isIntQ q) (h0 : 0 ≤ q) (h1 : q ≤ 1) :
    q = 0 ∨ q = 1 := by
  obtain ⟨k, rfl⟩ : ∃ k : ℤ, q = (k : ℚ) :=
    ⟨q.num, (Rat.coe_int_num_of_den_eq_one hint).symm⟩
  have h0' : (0 : ℤ) ≤ k := by exact_mod_cast h0
  have h1' : k ≤ 1 := by exact_mod_cast h1
  have hk : k = 0 ∨ k = 1 := by omega
  rcases hk with rfl | rfl
  · left; norm_num
  · right; norm_num

/-- All 0/1 assignments of length `n`. -/
def zeroOneLists : ℕ → List (List ℚ)
  | 0 => [[]]
  | n + 1 => (zeroOneLists n).flatMap fun x => [0 :: x, 1 :: x]

theorem mem_zeroOneLists_of : ∀ (n : ℕ) (y : List ℚ), y.length = n →
    (∀ j < n, y.getD j 0 = 0 ∨ y.getD j 0 = 1) → y ∈ zeroOneLists n
  | 0, [], _, _ => by simp [zeroOneLists]
  | 0, y :: ys, h, _ => by simp at h
  | n + 1, [], h, _ => by simp at h
  | n + 1, y0 :: ys, h, hc => by
    show y0 :: ys ∈ (zeroOneLists n).flatMap fun x => [0 :: x, 1 :: x]
    apply List.mem_flatMap.mpr
    refine ⟨ys, mem_zeroOneLists_of n ys (by simpa using h)
      (fun j hj => by
        have := hc (j + 1) (by omega)
        simpa using this), ?_⟩
    have h0 := hc 0 (by omega)
    simp only [List.getD_cons_zero] at h0
    rcases h0 with h0 | h0 <;> rw [h0] <;> simp

theorem zeroOneLists_sound : ∀ (n : ℕ) (y : List ℚ), y ∈ zeroOneLists n →
    y.length = n ∧ ∀ j < n, y.getD j 0 = 0 ∨ y.getD j 0 = 1
  | 0, y, h => by
    simp [zeroOneLists] at h
    subst h
    exact ⟨rfl, fun j hj => absurd hj (by omega)⟩
  | n + 1, y, h => by
    have h' : y ∈ (zeroOneLists n).flatMap fun x => [0 :: x, 1 :: x] := h
    rcases List.mem_flatMap.mp h' with ⟨x, hx, hy⟩
    obtain ⟨hlen, hcomp⟩ := zeroOneLists_sound n x hx
    simp only [List.mem_cons, List.not_mem_nil, or_false] at hy
    rcases hy with rfl | rfl
    all_goals refine ⟨by simp [hlen], ?_⟩
    all_goals intro j hj
    all_goals cases j with
      | zero => simp
      | succ j =>
        have := hcomp j (by omega)
        simpa using this

/-- Exhaustive enumeration: the 0/1 assignments satisfying every constraint. -/
def feasBinAsn (m : Model) : List (List ℚ) :=
  (zeroOneLists (numVars m)).filter fun x => decide (∀ c ∈ m.constraints, satCtr x c)

/-- Minimum of a list (`0` for the empty list). -/
def listMin : List ℚ → ℚ
  | [] => 0
  | a :: l => l.foldl min a

/-- Maximum of a list (`0` for the empty list). -/
def listMax : List ℚ → ℚ
  | [] => 0
  | a :: l => l.foldl max a

theorem foldl_min_mem : ∀ (l : List ℚ) (a : ℚ), l.foldl min a ∈ a :: l
  | [], _ => by simp
  | b :: l, a => by
    have h := foldl_min_mem l (min a b)
    simp only [List.foldl_cons]
    rcases List.mem_cons.mp h with h | h
    · rw [h]
      rcases min_choice a b with hm | hm <;> rw [hm] <;> simp
    · exact List.mem_cons_of_mem _ (List.mem_cons_of_mem _ h)

theorem foldl_max_mem : ∀ (l : List ℚ) (a : ℚ), l.foldl max a ∈ a :: l
  | [], _ => by simp
  | b :: l, a => by
    have h := foldl_max_mem l (max a b)
    simp only [List.foldl_cons]
    rcases List.mem_cons.mp h with h | h
    · rw [h]
      rcases max_choice a b with hm | hm <;> rw [hm] <;> simp
    · exact List.mem_cons_of_mem _ (List.mem_cons_of_mem _ h)

theorem listMin_le_mem {l : List ℚ} {b : ℚ} (h : b ∈ l) : listMin l ≤ b := by
  cases l with
  | nil => exact absurd h (List.not_mem_nil _)
  | cons a l => exact foldl_min_cons_le h

theorem listMin_spec_eq {l : List ℚ} {a : ℚ} (ha : a ∈ l) (h : ∀ b ∈ l, a ≤ b) :
    listMin l = a := by
  apply le_antisymm (listMin_le_mem ha)
  cases l with
  | nil => exact absurd ha (List.not_mem_nil _)
  | cons c l => exact h _ (foldl_min_mem l c)

theorem mem_le_listMax {l : List ℚ} {b : ℚ} (h : b ∈ l) : b ≤ listMax l := by
  cases l with
  | nil => exact absurd h (List.not_mem_nil _)
  | cons a l => exact le_foldl_max_cons h

theorem listMax_spec_eq {l : List ℚ} {a : ℚ} (ha : a ∈ l) (h : ∀ b ∈ l, b ≤ a) :
    listMax l = a := by
  apply le_antisymm
  · cases l with
    | nil => exact absurd ha (List.not_mem_nil _)
    | cons c l => exact h _ (foldl_max_mem l c)
  · exact mem_le_listMax ha

theorem boundsOkFrom_binary : ∀ (vs : List Variable) (i : ℕ) (x : List ℚ),
    (∀ v ∈ vs, v = ⟨.binary, some 0, some 1⟩) →
    (∀ j, i ≤ j → j < i + vs.length → 0 ≤ x.getD j 0 ∧ x.getD j 0 ≤ 1) →
    BoundsOkFrom x i vs
  | [], _, _, _, _ => trivial
  | v :: vs, i, x, hv, hc => by
    have hvi := hv v (List.mem_cons_self _ _)
    subst hvi
    refine ⟨⟨?_, ?_⟩, ?_⟩
    · show (0 : ℚ) ≤ x.getD i 0
      exact (hc i (le_refl _) (by simp)).1
    · show x.getD i 0 ≤ 1
      exact (hc i (le_refl _) (by simp)).2
    · exact boundsOkFrom_binary vs (i + 1) x
        (fun w hw => hv w (List.mem_cons_of_mem _ hw))
        (fun j hj1 hj2 => hc j (by omega) (by simp at hj2 ⊢; omega))

theorem mixFeas_mem_feasBin {m : Model} (hab : AllBinary m) {y : List ℚ}
    (hy : MixFeas m y) : y ∈ feasBinAsn m := by
  obtain ⟨hlen, hsat, hint⟩ := hy
  have hb := allBinary_binInts hab
  have hcomp : ∀ j < numVars m, y.getD j 0 = 0 ∨ y.getD j 0 = 1 := by
    intro j hj
    have hk := allBinary_kind hab hj
    obtain ⟨h0, h1⟩ := binVar_bounds_base hb hj hk hsat hlen
    exact int_zero_or_one (hint j hj hk) h0 h1
  apply List.mem_filter.mpr
  refine ⟨mem_zeroOneLists_of _ y hlen hcomp, ?_⟩
  rw [decide_eq_true_eq]
  exact ((satBase_iff hlen).mp hsat).1

theorem feasBin_mixFeas {m : Model} (hab : AllBinary m) {y : List ℚ}
    (hy : y ∈ feasBinAsn m) : MixFeas m y := by
  obtain ⟨hzo, hctr⟩ := List.mem_filter.mp hy
  rw [decide_eq_true_eq] at hctr
  obtain ⟨hlen, hcomp⟩ := zeroOneLists_sound _ y hzo
  refine ⟨hlen, ?_, ?_⟩
  · rw [satBase_iff hlen]
    refine ⟨hctr, boundsOkFrom_binary m.vars 0 y hab ?_⟩
    intro j _ hj2
    rcases hcomp j (by simpa [numVars] using hj2) with h | h <;> rw [h] <;> norm_num
  · intro j hj _
    rcases hcomp j hj with h | h <;> rw [h] <;> rfl

/-- The optimum of the objective over exhaustive enumeration of all 0/1
assignments satisfying every constraint. -/
def enumOptimum (m : Model) : ℚ :=
  match m.objective.dir with
  | .minimize => listMin ((feasBinAsn m).map fun x => evalExpr m.objective.expr x)
  | .maximize => listMax ((feasBinAsn m).map fun x => evalExpr m.objective.expr x)

/-! ### Budget monotonicity and the reporting layer -/

theorem bnbGo_fuel_mono (m : Model) :
    ∀ (fuel fuel' : ℕ) (stack : List (List Row)) (inc : Option (List ℚ)),
      fuel ≤ fuel' →
      (bnbGo m fuel stack inc).status ≠ .stoppedAtLimit →
      bnbGo m fuel' stack inc = bnbGo m fuel stack inc
  | _, _, [], none, _, _ => by rw [bnbGo_nil_none, bnbGo_nil_none]
  | _, _, [], some x, _, _ => by rw [bnbGo_nil_some, bnbGo_nil_some]
  | 0, _, node :: rest, inc, _, hne => by
    exfalso
    apply hne
    rw [bnbGo_zero_cons]
    rfl
  | fuel + 1, fuel', node :: rest, inc, hle, hne => by
    cases fuel' with
    | zero => omega
    | succ fuel'' =>
      have hle' : fuel ≤ fuel'' := by omega
      cases hlp : lpSolve (numVars m) (baseRows m ++ node) (objVec m) with
      | infeasible =>
        rw [bnbGo_succ_infeasible fuel rest inc hlp] at hne
        rw [bnbGo_succ_infeasible fuel'' rest inc hlp,
          bnbGo_succ_infeasible fuel rest inc hlp]
        exact bnbGo_fuel_mono m fuel fuel'' rest inc hle' hne
      | unbounded =>
        rw [bnbGo_succ_unbounded fuel'' rest inc hlp,
          bnbGo_succ_unbounded fuel rest inc hlp]
      | optimal x =>
        cases hpr : pruneChk m inc x with
        | true =>
          rw [bnbGo_succ_pruned fuel rest inc hlp hpr] at hne
          rw [bnbGo_succ_pruned fuel'' rest inc hlp hpr,
            bnbGo_succ_pruned fuel rest inc hlp hpr]
          exact bnbGo_fuel_mono m fuel fuel'' rest inc hle' hne
        | false =>
          cases hbv : branchVar m x with
          | none =>
            rw [bnbGo_succ_incumbent fuel rest inc hlp hpr hbv] at hne
            rw [bnbGo_succ_incumbent fuel'' rest inc hlp hpr hbv,
              bnbGo_succ_incumbent fuel rest inc hlp hpr hbv]
            exact bnbGo_fuel_mono m fuel fuel'' rest _ hle' hne
          | some j =>
            rw [bnbGo_succ_branch fuel rest inc hlp hpr hbv] at hne
            rw [bnbGo_succ_branch fuel'' rest inc hlp hpr hbv,
              bnbGo_succ_branch fuel rest inc hlp hpr hbv]
            exact bnbGo_fuel_mono m fuel fuel'' _ inc hle' hne

theorem solve_parts (m : Model) (fuel : ℕ) :
    (solve m fuel).objectiveValue = evalExpr m.objective.expr (solve m fuel).values ∧
      (solve m fuel).snapVars = m.vars ∧ (solve m fuel).snapCtrs = m.constraints := by
  obtain ⟨st, x, h⟩ := bnbGo_shape m fuel [[]] none
  rw [solve, h]
  exact ⟨rfl, rfl, rfl⟩

/-- Modelled from the spec: the error taxonomy of `evaluate` (§4.2, §7). -/
inductive EvalError where
  | staleSolution
  | unknownKpi
deriving DecidableEq, Repr

/-- Modelled from the spec: `evaluate` accepts an Expression or a registered
KPI name (§4.2). -/
inductive EvalTarget where
  | expr (e : LinExpr)
  | kpiName (s : String)

/-- Resolve an evaluation target against the model's KPI table. -/
def resolveTarget (m : Model) : EvalTarget → Option LinExpr
  | .expr e => some e
  | .kpiName s => (m.kpis.find? fun k => k.name == s).map fun k => k.expr

/-- Modelled from the spec: `evaluate(Expression | KPI name, Solution)`
(§4.2): substitutes variable values from a prior Solution; fails with
`staleSolution` if the Model's variable/constraint set has changed since that
Solution was produced (compared via the Solution's snapshot). -/
def evaluate (m : Model) (t : EvalTarget) (sol : Solution) : Except EvalError ℚ :=
  match resolveTarget m t with
  | none => .error .unknownKpi
  | some e =>
    if m.vars = sol.snapVars ∧ m.constraints = sol.snapCtrs then
      .ok (evalExpr e sol.values)
    else .error .staleSolution

/-- Budget bound in terms of the number of free integer variables at the root. -/
theorem solve_no_limit_free {m : Model} (hwf : MWf m) (hb : BinInts m) {fuel : ℕ}
    (hfuel : 2 ^ (freeN m [] + 1) ≤ fuel) :
    (solve m fuel).status ≠ .stoppedAtLimit := by
  apply bnbGo_no_limit m hwf hb fuel [[]] none
  · intro nd hnd
    rcases List.mem_singleton.mp hnd with rfl
    intro r hr
    exact absurd hr (List.not_mem_nil _)
  · have h2 : stackW m [[]] = nodeW m [] := by simp [stackW]
    rw [h2, nodeW]
    omega

theorem list_len4 {x : List ℚ} (h : x.length = 4) :
    ∃ a b c d, x = [a, b, c, d] := by
  rcases x with _ | ⟨a, _ | ⟨b, _ | ⟨c, _ | ⟨d, _ | ⟨e, x⟩⟩⟩⟩⟩ <;> simp at h
  exact ⟨a, b, c, d, rfl⟩

theorem list_len6 {x : List ℚ} (h : x.length = 6) :
    ∃ a b c d e f, x = [a, b, c, d, e, f] := by
  rcases x with _ | ⟨a, _ | ⟨b, _ | ⟨c, _ | ⟨d, _ | ⟨e, _ | ⟨f, _ | ⟨g, x⟩⟩⟩⟩⟩⟩⟩ <;> simp at h
  exact ⟨a, b, c, d, e, f, rfl⟩

theorem satCtr_of_satBase {m : Model} {c : Ctr} {x : List ℚ}
    (hc : c ∈ m.constraints) (h : satSys (baseRows m) x) : satCtr x c :=
  (satSys_flatMap_ctrRows_iff.mp (satSys_append.mp h).1) c hc

/-! ### The unit-commitment turn-on/turn-off constraint family

Embedded from the source notebook (the UCP notebook of this repository):
`in_use` and `turn_on` are `binary_var_matrix` families, `turn_off` is a
`continuous_var_matrix` family with bounds `[0, 1]`; the initial-state cell
posts, per unit, either `turn_on[u,1] == 0` and `turn_off[u,1] + in_use[u,1]
== 1` (when the initial production is positive) or `turn_on[u,1] ==
in_use[u,1]` and `turn_off[u,1] == 0`; the turn-on/turn-off cell posts, for
consecutive periods, `in_use_next - in_use_curr <= turn_on_next` and
`in_use_curr - in_use_next + turn_on_next == turn_off_next`. -/

namespace Ucp

/-- From the source: the initial-state constraints posted for each unit. -/
def InitialStateCtrs {U : Type} (initial : U → ℚ)
    (in_use turn_on turn_off : U → ℕ → ℚ) : Prop :=
  ∀ u : U,
    (0 < initial u → turn_on u 1 = 0 ∧ turn_off u 1 + in_use u 1 = 1) ∧
    (¬ 0 < initial u → turn_on u 1 = in_use u 1 ∧ turn_off u 1 = 0)

/-- From the source: the turn-on/turn-off linking constraints for consecutive
periods (`t - 1` and `t` with `2 ≤ t ≤ T`). -/
def TurnOnOffCtrs {U : Type} (T : ℕ) (in_use turn_on turn_off : U → ℕ → ℚ) : Prop :=
  ∀ (u : U) (t : ℕ), 2 ≤ t → t ≤ T →
    (in_use u t - in_use u (t - 1) ≤ turn_on u t) ∧
    (in_use u (t - 1) - in_use u t + turn_on u t = turn_off u t)

/-- A `binary_var_matrix` family takes values in `{0, 1}`. -/
def BinaryVals {U : Type} (T : ℕ) (f : U → ℕ → ℚ) : Prop :=
  ∀ (u : U) (t : ℕ), 1 ≤ t → t ≤ T → f u t = 0 ∨ f u t = 1

/-- A `continuous_var_matrix` family with `lb = 0, ub = 1` takes values in
the unit interval. -/
def UnitIntervalVals {U : Type} (T : ℕ) (f : U → ℕ → ℚ) : Prop :=
  ∀ (u : U) (t : ℕ), 1 ≤ t → t ≤ T → 0 ≤ f u t ∧ f u t ≤ 1

end Ucp

/-! ### Remaining definitions for the claims -/

/-- The LP Relaxation Solver's result embedded as a Solution of the model. -/
def lpToSolution (m : Model) : LPResult → Solution
  | .infeasible => mkSol m .infeasible []
  | .unbounded => mkSol m .unbounded []
  | .optimal x => mkSol m .optimal x

/-- The model contains no integer or binary variables. -/
def NoIntVars (m : Model) : Prop := ∀ v ∈ m.vars, v.kind = .continuous

instance (m : Model) : Decidable (NoIntVars m) := List.decidableBAll _ m.vars

theorem varAt_mem {m : Model} {j : ℕ} (hj : j < numVars m) : varAt m j ∈ m.vars := by
  rw [varAt, List.getD_eq_getElem?_getD, List.getElem?_eq_getElem hj]
  exact List.getElem_mem hj

theorem noIntVars_branchVar {m : Model} (h : NoIntVars m) (x : List ℚ) :
    branchVar m x = none := by
  rw [branchVar]
  have hf : fracCands m x = [] := by
    rw [fracCands]
    apply List.filter_eq_nil_iff.mpr
    intro j hj
    have hj' : j < numVars m := List.mem_range.mp hj
    have hk : (varAt m j).kind = .continuous := h _ (varAt_mem hj')
    simp [hk]
  rw [hf]

/-- A constraint tightened: same expression and operator, the bound moved
weakly inward for its operator. -/
def Tightens (c' c : Ctr) : Prop :=
  c'.expr = c.expr ∧ c'.rel = c.rel ∧
    (c.rel = .le → c'.rhs ≤ c.rhs) ∧ (c.rel = .ge → c.rhs ≤ c'.rhs) ∧
    (c.rel = .eq → c'.rhs = c.rhs)

instance (c' c : Ctr) : Decidable (Tightens c' c) := by
  unfold Tightens
  infer_instance

/-- The constraint holds with strict slack at an assignment (non-binding). -/
def NonBinding (x : List ℚ) (c : Ctr) : Prop :=
  (c.rel = .le → evalExpr c.expr x < c.rhs) ∧
    (c.rel = .ge → c.rhs < evalExpr c.expr x) ∧ c.rel ≠ .eq

instance (x : List ℚ) (c : Ctr) : Decidable (NonBinding x c) := by
  unfold NonBinding
  infer_instance

theorem satCtr_of_tightens {x : List ℚ} {c' c : Ctr} (ht : Tightens c' c)
    (h : satCtr x c') : satCtr x c := by
  obtain ⟨he, hr, h1, h2, h3⟩ := ht
  cases hrel : c.rel with
  | le =>
    have hrel' : c'.rel = .le := by rw [hr, hrel]
    simp only [satCtr, hrel'] at h
    simp only [satCtr, hrel]
    rw [← he]
    have := h1 hrel
    linarith
  | eq =>
    have hrel' : c'.rel = .eq := by rw [hr, hrel]
    simp only [satCtr, hrel'] at h
    simp only [satCtr, hrel]
    rw [← he, h, h3 hrel]
  | ge =>
    have hrel' : c'.rel = .ge := by rw [hr, hrel]
    simp only [satCtr, hrel'] at h
    simp only [satCtr, hrel]
    rw [← he]
    have := h2 hrel
    linarith

/-- The unit-commitment scenario instance: variables `in_use` (binary),
`turn_on` (binary), `turn_off` (continuous in `[0,1]`), `production`
(continuous, lower bound 0); constraints `production ≤ 200 in_use`,
`production ≥ 50 in_use`, `production ≥ 100` (demand), `turn_on = in_use`
(unit initially off), `turn_off = 0`; objective: minimize
`10 in_use + production`. -/
def ucpScenario : Model :=
  ⟨[⟨.binary, some 0, some 1⟩, ⟨.binary, some 0, some 1⟩,
    ⟨.continuous, some 0, some 1⟩, ⟨.continuous, some 0, none⟩],
   [⟨⟨[-200, 0, 0, 1], 0⟩, .le, 0⟩,
    ⟨⟨[-50, 0, 0, 1], 0⟩, .ge, 0⟩,
    ⟨⟨[0, 0, 0, 1], 0⟩, .ge, 100⟩,
    ⟨⟨[1, -1, 0, 0], 0⟩, .eq, 0⟩,
    ⟨⟨[0, 0, 1, 0], 0⟩, .eq, 0⟩],
   ⟨.minimize, ⟨[10, 0, 0, 1], 0⟩⟩, []⟩

/-- The load-balancing scenario instance: variables `isActive` for servers 1
and 2 (binary) then the four user-to-server assignment variables (binary);
constraints: per-server capacity `10 a11 + 10 a21 ≤ 50` and
`10 a12 + 10 a22 ≤ 5`, assignment-implies-active rows, and one-server-per-user
equalities; objective: minimize the number of active servers; the KPI
`Number of active servers` is registered. -/
def lbScenario : Model :=
  ⟨[⟨.binary, some 0, some 1⟩, ⟨.binary, some 0, some 1⟩, ⟨.binary, some 0, some 1⟩,
    ⟨.binary, some 0, some 1⟩, ⟨.binary, some 0, some 1⟩, ⟨.binary, some 0, some 1⟩],
   [⟨⟨[0, 0, 10, 0, 10, 0], 0⟩, .le, 50⟩,
    ⟨⟨[0, 0, 0, 10, 0, 10], 0⟩, .le, 5⟩,
    ⟨⟨[-1, 0, 1, 0, 0, 0], 0⟩, .le, 0⟩,
    ⟨⟨[-1, 0, 0, 0, 1, 0], 0⟩, .le, 0⟩,
    ⟨⟨[0, -1, 0, 1, 0, 0], 0⟩, .le, 0⟩,
    ⟨⟨[0, -1, 0, 0, 0, 1], 0⟩, .le, 0⟩,
    ⟨⟨[0, 0, 1, 1, 0, 0], 0⟩, .eq, 1⟩,
    ⟨⟨[0, 0, 0, 0, 1, 1], 0⟩, .eq, 1⟩],
   ⟨.minimize, ⟨[1, 1, 0, 0, 0, 0], 0⟩⟩,
   [⟨"Number of active servers", ⟨[1, 1, 0, 0, 0, 0], 0⟩⟩]⟩

/-- Witness model: one binary variable, no constraints, minimize it. -/
def oneBinModel : Model :=
  ⟨[⟨.binary, some 0, some 1⟩], [], ⟨.minimize, ⟨[1], 0⟩⟩, []⟩

/-- Witness model: one continuous variable in `[0, 10]` with `x ≥ 1` and
`x ≤ 10`, minimize it. -/
def boxModel : Model :=
  ⟨[⟨.continuous, some 0, some 10⟩],
   [⟨⟨[1], 0⟩, .ge, 1⟩, ⟨⟨[1], 0⟩, .le, 10⟩],
   ⟨.minimize, ⟨[1], 0⟩⟩, []⟩

/-- Witness model: `boxModel` with the non-binding `x ≤ 10` tightened to
`x ≤ 5`. -/
def boxModelTight : Model :=
  ⟨[⟨.continuous, some 0, some 10⟩],
   [⟨⟨[1], 0⟩, .ge, 1⟩, ⟨⟨[1], 0⟩, .le, 5⟩],
   ⟨.minimize, ⟨[1], 0⟩⟩, []⟩

/-- Witness model: no variables at all. -/
def emptyModel : Model := ⟨[], [], ⟨.minimize, ⟨[], 0⟩⟩, []⟩

/-- Witness model: one continuous variable with `x ≥ 5` and `x ≤ 3`
(contradictory constraints). -/
def contraModel : Model :=
  ⟨[⟨.continuous, none, none⟩],
   [⟨⟨[1], 0⟩, .ge, 5⟩, ⟨⟨[1], 0⟩, .le, 3⟩],
   ⟨.minimize, ⟨[1], 0⟩⟩, []⟩

/-- Witness model: one continuous variable, one constraint, one KPI. -/
def kpiModel : Model :=
  ⟨[⟨.continuous, some 0, some 10⟩],
   [⟨⟨[1], 0⟩, .ge, 1⟩],
   ⟨.minimize, ⟨[1], 0⟩⟩,
   [⟨"total cost", ⟨[2], 0⟩⟩]⟩

/-- `kpiModel` after its constraint set changed (one more constraint). -/
def kpiModelChanged : Model :=
  ⟨[⟨.continuous, some 0, some 10⟩],
   [⟨⟨[1], 0⟩, .ge, 1⟩, ⟨⟨[1], 0⟩, .le, 7⟩],
   ⟨.minimize, ⟨[1], 0⟩⟩,
   [⟨"total cost", ⟨[2], 0⟩⟩]⟩

/-! ### The claims -/

/-- C2: for a Model with no integer or binary variables, the Branch-and-Bound
solve returns exactly the LP Relaxation Solver's result on the model: the
root relaxation is already integer-feasible and terminal, so the statuses
coincide and an optimal solution is returned unchanged (hence with the same
objective value; arithmetic is exact, so the tolerance is zero). -/
theorem claim2_lp_refinement (m : Model) (fuel : ℕ)
    (hni : NoIntVars m) (hfuel : 1 ≤ fuel) :
    solve m fuel = lpToSolution m (lpSolve (numVars m) (baseRows m) (objVec m)) := by
  cases fuel with
  | zero => omega
  | succ f =>
    have heq : baseRows m ++ ([] : List Row) = baseRows m := List.append_nil _
    cases hlp : lpSolve (numVars m) (baseRows m) (objVec m) with
    | infeasible =>
      have hlp' : lpSolve (numVars m) (baseRows m ++ []) (objVec m) = .infeasible := by
        rw [heq]
        exact hlp
      rw [solve, bnbGo_succ_infeasible f [] none hlp', bnbGo_nil_none, lpToSolution]
    | unbounded =>
      have hlp' : lpSolve (numVars m) (baseRows m ++ []) (objVec m) = .unbounded := by
        rw [heq]
        exact hlp
      rw [solve, bnbGo_succ_unbounded f [] none hlp', lpToSolution]
    | optimal x =>
      have hlp' : lpSolve (numVars m) (baseRows m ++ []) (objVec m) = .optimal x := by
        rw [heq]
        exact hlp
      have hpr : pruneChk m none x = false := rfl
      have hbv : branchVar m x = none := noIntVars_branchVar hni x
      rw [solve, bnbGo_succ_incumbent f [] none hlp' hpr hbv]
      have hup : updateInc m none x = x := rfl
      rw [hup, bnbGo_nil_some, lpToSolution]

/-- C2 witness: on a concrete continuous model the hypotheses hold. -/
theorem claim2_witness :
    NoIntVars boxModel ∧ 1 ≤ 1 ∧
      solve boxModel 1 =
        lpToSolution boxModel
          (lpSolve (numVars boxModel) (baseRows boxModel) (objVec boxModel)) :=
  ⟨by decide, le_refl _, claim2_lp_refinement boxModel 1 (by decide) (le_refl _)⟩

/-- C3: solve is a total function into Solutions carrying one of the four
typed statuses (it never raises), and on any model containing the
contradictory constraints `x i ≥ 5` and `x i ≤ 3` it returns the status
`infeasible`. -/
theorem claim3_contradictory_infeasible (m : Model) (fuel : ℕ) (i : ℕ)
    (hwf : MWf m) (hi : i < numVars m) (hfuel : 1 ≤ fuel)
    (hge : (⟨⟨stdRow (numVars m) i 1, 0⟩, .ge, 5⟩ : Ctr) ∈ m.constraints)
    (hle : (⟨⟨stdRow (numVars m) i 1, 0⟩, .le, 3⟩ : Ctr) ∈ m.constraints) :
    (∀ (m' : Model) (fuel' : ℕ),
        (solve m' fuel').status = .optimal ∨ (solve m' fuel').status = .infeasible ∨
          (solve m' fuel').status = .unbounded ∨
          (solve m' fuel').status = .stoppedAtLimit) ∧
      (solve m fuel).status = .infeasible := by
  constructor
  · intro m' fuel'
    cases h : (solve m' fuel').status <;> simp
  · have hnofeas : ∀ y : List ℚ, y.length = numVars m → ¬ satSys (baseRows m) y := by
      intro y hy hsat
      have h1 := satCtr_of_satBase hge hsat
      have h2 := satCtr_of_satBase hle hsat
      have h1' : (5 : ℚ) ≤ evalExpr ⟨stdRow (numVars m) i 1, 0⟩ y := h1
      have h2' : evalExpr ⟨stdRow (numVars m) i 1, 0⟩ y ≤ 3 := h2
      simp only [evalExpr] at h1' h2'
      rw [dot_stdRow i y _ _ (by omega)] at h1' h2'
      linarith
    cases fuel with
    | zero => omega
    | succ f =>
      cases hlp : lpSolve (numVars m) (baseRows m) (objVec m) with
      | infeasible =>
        have hlp' : lpSolve (numVars m) (baseRows m ++ []) (objVec m) = .infeasible := by
          rw [List.append_nil]
          exact hlp
        rw [solve, bnbGo_succ_infeasible f [] none hlp', bnbGo_nil_none]
        rfl
      | unbounded =>
        exfalso
        obtain ⟨y, hl, hs, _⟩ :=
          lpSolve_unbounded_spec (rowsWf_baseRows hwf) (length_objVec hwf) hlp 0
        exact hnofeas y hl hs
      | optimal x =>
        exfalso
        have hx := lpSolve_optimal_spec (rowsWf_baseRows hwf) (length_objVec hwf) hlp
        exact hnofeas x hx.1 hx.2.1

/-- C3 witness: the concrete contradictory model yields `infeasible`. -/
theorem claim3_witness :
    (MWf contraModel ∧ 0 < numVars contraModel ∧
        (⟨⟨stdRow (numVars contraModel) 0 1, 0⟩, .ge, 5⟩ : Ctr) ∈
          contraModel.constraints ∧
        (⟨⟨stdRow (numVars contraModel) 0 1, 0⟩, .le, 3⟩ : Ctr) ∈
          contraModel.constraints) ∧
      (solve contraModel 3).status = .infeasible :=
  ⟨⟨by decide, by decide, by decide, by decide⟩,
    (claim3_contradictory_infeasible contraModel 3 0 (by decide) (by decide)
      (by norm_num) (by decide) (by decide)).2⟩

/-- C4: every solve call terminates with a definite result: the engine's only
way to give up is the explicit node budget, reported as `stoppedAtLimit`
(witnessed by a zero budget), and a result other than `stoppedAtLimit` is
final: granting any larger budget returns the identical Solution, so the
engine never cycles or loops indefinitely. -/
theorem claim4_terminates_stably (m : Model) (fuel fuel' : ℕ) (hle : fuel ≤ fuel')
    (hne : (solve m fuel).status ≠ .stoppedAtLimit) :
    solve m fuel' = solve m fuel ∧ (solve m 0).status = .stoppedAtLimit :=
  ⟨bnbGo_fuel_mono m fuel fuel' [[]] none hle hne, rfl⟩

section RatKernelEval

attribute [local semireducible] Rat.add Rat.mul Rat.sub Rat.inv

/-- C4 witness: on a concrete model a definitive result is budget-stable. -/
theorem claim4_witness :
    (1 ≤ 2 ∧ (solve emptyModel 1).status ≠ .stoppedAtLimit) ∧
      solve emptyModel 2 = solve emptyModel 1 ∧
        (solve emptyModel 0).status = .stoppedAtLimit :=
  ⟨⟨by norm_num, by decide⟩, claim4_terminates_stably emptyModel 1 2 (by norm_num) (by decide)⟩

end RatKernelEval

/-- C6: for every Model and Solution its solve produces, the stored objective
value is exactly the Model's objective Expression evaluated at the Solution's
variable values, and `evaluate` on the objective Expression returns exactly
that stored value. -/
theorem claim6_objective_roundtrip (m : Model) (fuel : ℕ) :
    evaluate m (.expr m.objective.expr) (solve m fuel) =
        .ok (solve m fuel).objectiveValue ∧
      (solve m fuel).objectiveValue =
        evalExpr m.objective.expr (solve m fuel).values := by
  obtain ⟨h1, h2, h3⟩ := solve_parts m fuel
  refine ⟨?_, h1⟩
  simp only [evaluate, resolveTarget]
  rw [if_pos ⟨h2.symm, h3.symm⟩, h1]

/-- C9: `evaluate` on an Expression or a registered KPI name against a
Solution produced by a prior solve substitutes the Solution's variable values
when the Model's variable/constraint set is unchanged since that solve, and
fails with the stale-solution error when it has changed. -/
theorem claim9_evaluate_stale (m m0 : Model) (fuel : ℕ) (t : EvalTarget)
    (e : LinExpr) (sol : Solution)
    (hres : resolveTarget m t = some e) (hsol : sol = solve m0 fuel) :
    evaluate m t sol =
      if m.vars = m0.vars ∧ m.constraints = m0.constraints then
        .ok (evalExpr e sol.values)
      else .error .staleSolution := by
  subst hsol
  obtain ⟨_, h2, h3⟩ := solve_parts m0 fuel
  simp only [evaluate, hres, h2, h3]

/-- C9 witness: a registered KPI name evaluates against a fresh solve of the
same model, and errs as stale after the constraint set changed. -/
theorem claim9_witness :
    (resolveTarget kpiModel (.kpiName "total cost") = some ⟨[2], 0⟩ ∧
        resolveTarget kpiModelChanged (.kpiName "total cost") = some ⟨[2], 0⟩ ∧
        ¬ (kpiModelChanged.vars = kpiModel.vars ∧
            kpiModelChanged.constraints = kpiModel.constraints)) ∧
      evaluate kpiModel (.kpiName "total cost") (solve kpiModel 2) =
        (if kpiModel.vars = kpiModel.vars ∧ kpiModel.constraints = kpiModel.constraints
          then .ok (evalExpr ⟨[2], 0⟩ (solve kpiModel 2).values)
          else .error .staleSolution) ∧
      evaluate kpiModelChanged (.kpiName "total cost") (solve kpiModel 2) =
        (if kpiModelChanged.vars = kpiModel.vars ∧
            kpiModelChanged.constraints = kpiModel.constraints
          then .ok (evalExpr ⟨[2], 0⟩ (solve kpiModel 2).values)
          else .error .staleSolution) :=
  ⟨⟨rfl, rfl, by decide⟩,
    claim9_evaluate_stale kpiModel kpiModel 2 (.kpiName "total cost") ⟨[2], 0⟩
      (solve kpiModel 2) rfl rfl,
    claim9_evaluate_stale kpiModelChanged kpiModel 2 (.kpiName "total cost") ⟨[2], 0⟩
      (solve kpiModel 2) rfl rfl⟩

/-- C10: in the unit-commitment model, although `turn_off[u,t]` is declared
continuous with bounds `[0,1]`, every feasible solution gives it an integral
value in `{0,1}`: for `t ≥ 2` the linking equation forces
`turn_off[u,t] = in_use[u,t-1] - in_use[u,t] + turn_on[u,t]`, a sum of
binary-valued terms confined to `[0,1]`, and for `t = 1` the initial-state
constraints fix it to `0` or to `1 - in_use[u,1]`. -/
theorem claim10_turn_off_integral {U : Type} (T : ℕ) (initial : U → ℚ)
    (in_use turn_on turn_off : U → ℕ → ℚ)
    (hiu : Ucp.BinaryVals T in_use) (hton : Ucp.BinaryVals T turn_on)
    (htoff : Ucp.UnitIntervalVals T turn_off)
    (hinit : Ucp.InitialStateCtrs initial in_use turn_on turn_off)
    (hlink : Ucp.TurnOnOffCtrs T in_use turn_on turn_off) :
    ∀ (u : U) (t : ℕ), 1 ≤ t → t ≤ T → turn_off u t = 0 ∨ turn_off u t = 1 := by
  intro u t h1 hT
  rcases eq_or_lt_of_le h1 with h1' | h1'
  · cases h1'
    by_cases hpos : 0 < initial u
    · have h := (hinit u).1 hpos
      have hT1 : 1 ≤ T := hT
      rcases hiu u 1 (le_refl _) hT1 with hu | hu
      · right
        rw [hu] at h
        linarith [h.2]
      · left
        rw [hu] at h
        linarith [h.2]
    · exact Or.inl ((hinit u).2 hpos).2
  · have h2 : 2 ≤ t := h1'
    have hlinkt := (hlink u t h2 hT).2
    have hu1 := hiu u (t - 1) (by omega) (by omega)
    have hu2 := hiu u t (by omega) hT
    have hu3 := hton u t (by omega) hT
    have hb := htoff u t (by omega) hT
    rcases hu1 with h1 | h1 <;> rcases hu2 with hx | hx <;> rcases hu3 with h3 | h3 <;>
      rw [h1, hx, h3] at hlinkt <;>
      first
        | (left; linarith)
        | (right; linarith)
        | (exfalso; linarith [hb.1, hb.2])

/-- C10 witness: a concrete one-unit, two-period instance satisfying all the
constraint hypotheses. -/
theorem claim10_witness :
    (Ucp.BinaryVals (U := Unit) 2 (fun _ _ => 1) ∧
        Ucp.BinaryVals (U := Unit) 2 (fun _ _ => 0) ∧
        Ucp.UnitIntervalVals (U := Unit) 2 (fun _ _ => 0) ∧
        Ucp.InitialStateCtrs (U := Unit) (fun _ => 1) (fun _ _ => 1) (fun _ _ => 0)
          (fun _ _ => 0) ∧
        Ucp.TurnOnOffCtrs (U := Unit) 2 (fun _ _ => 1) (fun _ _ => 0) (fun _ _ => 0)) ∧
      ∀ (u : Unit) (t : ℕ), 1 ≤ t → t ≤ 2 →
        (fun (_ : Unit) (_ : ℕ) => (0 : ℚ)) u t = 0 ∨
          (fun (_ : Unit) (_ : ℕ) => (0 : ℚ)) u t = 1 := by
  have hbu : Ucp.BinaryVals (U := Unit) 2 (fun _ _ => (1 : ℚ)) :=
    fun _ _ _ _ => Or.inr rfl
  have hbo : Ucp.BinaryVals (U := Unit) 2 (fun _ _ => (0 : ℚ)) :=
    fun _ _ _ _ => Or.inl rfl
  have hui : Ucp.UnitIntervalVals (U := Unit) 2 (fun _ _ => (0 : ℚ)) :=
    fun _ _ _ _ => ⟨le_refl _, by norm_num⟩
  have hin : Ucp.InitialStateCtrs (U := Unit) (fun _ => 1) (fun _ _ => 1)
      (fun _ _ => 0) (fun _ _ => 0) :=
    fun _ => ⟨fun _ => ⟨rfl, by norm_num⟩, fun h => absurd (by norm_num : (0:ℚ) < 1) h⟩
  have hlk : Ucp.TurnOnOffCtrs (U := Unit) 2 (fun _ _ => 1) (fun _ _ => 0)
      (fun _ _ => 0) :=
    fun _ _ _ _ => ⟨by norm_num, by norm_num⟩
  exact ⟨⟨hbu, hbo, hui, hin, hlk⟩,
    claim10_turn_off_integral 2 (fun _ => 1) (fun _ _ => 1) (fun _ _ => 0)
      (fun _ _ => 0) hbu hbo hui hin hlk⟩

/-- C1: for every feasible all-binary Model with at most 20 variables (and a
node budget covering the worst-case search tree), the Branch-and-Bound solve
returns an optimal incumbent whose objective value equals the optimum of the
objective over exhaustive enumeration of all assignments in the 0/1 cube that
satisfy every constraint. -/
theorem claim1_matches_enumeration (m : Model) (fuel : ℕ)
    (hwf : MWf m) (hab : AllBinary m) (hn : numVars m ≤ 20)
    (hfuel : 2 ^ 21 ≤ fuel) (hfeas : feasBinAsn m ≠ []) :
    (solve m fuel).status = .optimal ∧
      (solve m fuel).objectiveValue = enumOptimum m := by
  have hb := allBinary_binInts hab
  have hnl : (solve m fuel).status ≠ .stoppedAtLimit := by
    apply solve_no_limit hwf hb
    calc 2 ^ (numVars m + 1) ≤ 2 ^ 21 := Nat.pow_le_pow_right (by norm_num) (by omega)
    _ ≤ fuel := hfuel
  have hnu := allBinary_not_unbounded hwf hab fuel
  have hninf : (solve m fuel).status ≠ .infeasible := by
    intro h
    cases hfe : feasBinAsn m with
    | nil => exact hfeas hfe
    | cons a l =>
      have ha : a ∈ feasBinAsn m := by rw [hfe]; exact List.mem_cons_self _ _
      exact (solve_invariants hwf fuel).2.1 h a (feasBin_mixFeas hab ha)
  have hst : (solve m fuel).status = .optimal := by
    cases h : (solve m fuel).status with
    | optimal => rfl
    | infeasible => exact absurd h hninf
    | unbounded => exact absurd h hnu
    | stoppedAtLimit => exact absurd h hnl
  refine ⟨hst, ?_⟩
  obtain ⟨hopt1, hopt2⟩ := (solve_invariants hwf fuel).1 hst
  have hval := (solve_parts m fuel).1
  have hvmem : (solve m fuel).values ∈ feasBinAsn m := mixFeas_mem_feasBin hab hopt1
  cases hdir : m.objective.dir with
  | minimize =>
    have hobj : objVec m = m.objective.expr.coeffs := by rw [objVec, hdir]
    rw [hval]
    simp only [enumOptimum, hdir]
    refine (listMin_spec_eq (List.mem_map_of_mem _ hvmem) ?_).symm
    intro b hb'
    rcases List.mem_map.mp hb' with ⟨y, hy, rfl⟩
    have hle := hopt2 y (feasBin_mixFeas hab hy)
    rw [hobj] at hle
    simp only [evalExpr]
    linarith
  | maximize =>
    have hobj : objVec m = negL m.objective.expr.coeffs := by rw [objVec, hdir]
    rw [hval]
    simp only [enumOptimum, hdir]
    refine (listMax_spec_eq (List.mem_map_of_mem _ hvmem) ?_).symm
    intro b hb'
    rcases List.mem_map.mp hb' with ⟨y, hy, rfl⟩
    have hle := hopt2 y (feasBin_mixFeas hab hy)
    rw [hobj, dot_negL, dot_negL] at hle
    simp only [evalExpr]
    linarith

/-- C1 witness: a one-variable all-binary model. -/
theorem claim1_witness :
    (MWf oneBinModel ∧ AllBinary oneBinModel ∧ numVars oneBinModel ≤ 20 ∧
        2 ^ 21 ≤ 2 ^ 21 ∧ feasBinAsn oneBinModel ≠ []) ∧
      (solve oneBinModel (2 ^ 21)).status = .optimal ∧
        (solve oneBinModel (2 ^ 21)).objectiveValue = enumOptimum oneBinModel :=
  ⟨⟨by decide, by decide, by decide, le_refl _, by decide⟩,
    claim1_matches_enumeration oneBinModel (2 ^ 21) (by decide) (by decide)
      (by decide) (le_refl _) (by decide)⟩

/-- C5: for a minimize-direction Model solved to optimality, tightening the
bound of one constraint (in particular one that was non-binding at that
optimum) and re-solving to optimality never yields a strictly smaller
objective value: the tightened feasible set is contained in the original one,
so the first optimum is a lower bound on the second. -/
theorem claim5_tighten_monotone (m m' : Model) (fuel fuel' : ℕ)
    (pre post : List Ctr) (c c' : Ctr)
    (hwf : MWf m) (hwf' : MWf m')
    (hvars : m'.vars = m.vars) (hobj : m'.objective = m.objective)
    (hdir : m.objective.dir = .minimize)
    (hm : m.constraints = pre ++ c :: post)
    (hm' : m'.constraints = pre ++ c' :: post)
    (ht : Tightens c' c)
    (hnb : NonBinding (solve m fuel).values c)
    (h1 : (solve m fuel).status = .optimal)
    (h2 : (solve m' fuel').status = .optimal) :
    (solve m fuel).objectiveValue ≤ (solve m' fuel').objectiveValue := by
  have hn : numVars m' = numVars m := by rw [numVars, numVars, hvars]
  obtain ⟨hfeas', hmin'⟩ := (solve_invariants hwf' fuel').1 h2
  obtain ⟨hfeas, hmin⟩ := (solve_invariants hwf fuel).1 h1
  obtain ⟨hl, hs, hi⟩ := hfeas'
  have hl2 : (solve m' fuel').values.length = numVars m := by omega
  have htrans : MixFeas m (solve m' fuel').values := by
    refine ⟨hl2, ?_, ?_⟩
    · rw [satBase_iff hl] at hs
      rw [satBase_iff hl2]
      constructor
      · intro d hd
        rw [hm] at hd
        rcases List.mem_append.mp hd with hd | hd
        · exact hs.1 d (by rw [hm']; exact List.mem_append_left _ hd)
        · rcases List.mem_cons.mp hd with rfl | hd
          · exact satCtr_of_tightens ht (hs.1 c'
              (by rw [hm']; exact List.mem_append_right _ (List.mem_cons_self _ _)))
          · exact hs.1 d
              (by rw [hm']; exact List.mem_append_right _ (List.mem_cons_of_mem _ hd))
      · rw [← hvars]
        exact hs.2
    · intro j hj hk
      have hvv : varAt m' j = varAt m j := by rw [varAt, varAt, hvars]
      exact hi j (by omega) (by rw [hvv]; exact hk)
  have hle := hmin _ htrans
  rw [(solve_parts m fuel).1, (solve_parts m' fuel').1]
  have hov : objVec m = m.objective.expr.coeffs := by rw [objVec, hdir]
  have hoe : m'.objective.expr = m.objective.expr := by rw [hobj]
  rw [hoe]
  rw [hov] at hle
  simp only [evalExpr]
  linarith

section RatKernelEvalScenarios

attribute [local semireducible] Rat.add Rat.mul Rat.sub Rat.inv

/-- C5 witness: minimize `x` over `x ≥ 1, x ≤ 10`; tightening the non-binding
`x ≤ 10` to `x ≤ 5` does not decrease the optimum. -/
theorem claim5_witness :
    (MWf boxModel ∧ MWf boxModelTight ∧
        boxModelTight.vars = boxModel.vars ∧
        boxModelTight.objective = boxModel.objective ∧
        boxModel.objective.dir = .minimize ∧
        boxModel.constraints = [⟨⟨[1], 0⟩, .ge, 1⟩] ++ ⟨⟨[1], 0⟩, .le, 10⟩ :: [] ∧
        boxModelTight.constraints = [⟨⟨[1], 0⟩, .ge, 1⟩] ++ ⟨⟨[1], 0⟩, .le, 5⟩ :: [] ∧
        Tightens ⟨⟨[1], 0⟩, .le, 5⟩ ⟨⟨[1], 0⟩, .le, 10⟩ ∧
        NonBinding (solve boxModel 1).values ⟨⟨[1], 0⟩, .le, 10⟩ ∧
        (solve boxModel 1).status = .optimal ∧
        (solve boxModelTight 1).status = .optimal) ∧
      (solve boxModel 1).objectiveValue ≤ (solve boxModelTight 1).objectiveValue :=
  ⟨⟨by decide, by decide, rfl, rfl, rfl, rfl, rfl, by decide, by decide, by decide,
      by decide⟩,
    claim5_tighten_monotone boxModel boxModelTight 1 1 [⟨⟨[1], 0⟩, .ge, 1⟩] []
      ⟨⟨[1], 0⟩, .le, 10⟩ ⟨⟨[1], 0⟩, .le, 5⟩ (by decide) (by decide) rfl rfl rfl rfl rfl
      (by decide) (by decide) (by decide) (by decide)⟩

/-- C7: the one-unit unit-commitment scenario (demand 100, min generation 50,
max generation 200, fixed cost 10, variable cost 1, unit initially off)
solves to an optimal Solution with the unit on (`in_use = 1`), production
exactly 100, and objective value 110. -/
theorem claim7_ucp_scenario (fuel : ℕ) (hfuel : 8 ≤ fuel) :
    (solve ucpScenario fuel).status = .optimal ∧
      (solve ucpScenario fuel).values.getD 0 0 = 1 ∧
      (solve ucpScenario fuel).values.getD 3 0 = 100 ∧
      (solve ucpScenario fuel).objectiveValue = 110 := by
  have hwf : MWf ucpScenario := by decide
  have hb : BinInts ucpScenario := by decide
  have hfree : freeN ucpScenario [] = 2 := by decide
  have hnl : (solve ucpScenario fuel).status ≠ .stoppedAtLimit := by
    apply solve_no_limit_free hwf hb
    rw [hfree]
    omega
  have hcand : MixFeas ucpScenario [1, 1, 0, 100] := by decide
  have hnu : (solve ucpScenario fuel).status ≠ .unbounded := by
    intro h
    obtain ⟨y, hl, hs, hd⟩ := (solve_invariants hwf fuel).2.2 h (-1)
    obtain ⟨a, b, cc, d, rfl⟩ := list_len4 hl
    have hdem : satCtr [a, b, cc, d] ⟨⟨[0, 0, 0, 1], 0⟩, .ge, 100⟩ :=
      satCtr_of_satBase (by decide) hs
    have hdem' : (100 : ℚ) ≤ evalExpr ⟨[0, 0, 0, 1], 0⟩ [a, b, cc, d] := hdem
    simp [evalExpr, dot] at hdem'
    have ha := binVar_bounds_base hb (m := ucpScenario) (j := 0) (by decide) (by decide) hs hl
    simp at ha
    simp [objVec, dot] at hd
    linarith [ha.1]
  have hninf : (solve ucpScenario fuel).status ≠ .infeasible := by
    intro h
    exact (solve_invariants hwf fuel).2.1 h [1, 1, 0, 100] hcand
  have hst : (solve ucpScenario fuel).status = .optimal := by
    cases h : (solve ucpScenario fuel).status with
    | optimal => rfl
    | infeasible => exact absurd h hninf
    | unbounded => exact absurd h hnu
    | stoppedAtLimit => exact absurd h hnl
  obtain ⟨hfeas, hmin⟩ := (solve_invariants hwf fuel).1 hst
  have hminv := hmin [1, 1, 0, 100] hcand
  obtain ⟨hlen, hsat, hint⟩ := hfeas
  obtain ⟨a, b, cc, d, hx⟩ := list_len4 hlen
  rw [hx] at hsat hint hminv
  have hc1 : satCtr [a, b, cc, d] ⟨⟨[-200, 0, 0, 1], 0⟩, .le, 0⟩ :=
    satCtr_of_satBase (by decide) hsat
  have hc3 : satCtr [a, b, cc, d] ⟨⟨[0, 0, 0, 1], 0⟩, .ge, 100⟩ :=
    satCtr_of_satBase (by decide) hsat
  have hc1' : evalExpr ⟨[-200, 0, 0, 1], 0⟩ [a, b, cc, d] ≤ 0 := hc1
  have hc3' : (100 : ℚ) ≤ evalExpr ⟨[0, 0, 0, 1], 0⟩ [a, b, cc, d] := hc3
  simp [evalExpr, dot] at hc1' hc3'
  have hbnd : 0 ≤ a ∧ a ≤ 1 := by
    have h := binVar_bounds_base hb (m := ucpScenario) (j := 0) (by decide) (by decide)
      hsat (by rw [hx] at hlen; exact hlen)
    simpa using h
  have hintA : isIntQ a := by
    have h := hint 0 (by norm_num [numVars, ucpScenario]) (by decide)
    simpa using h
  simp [objVec, dot] at hminv
  rcases int_zero_or_one hintA hbnd.1 hbnd.2 with ha | ha
  · exfalso
    rw [ha] at hc1'
    linarith
  · have hd100 : d = 100 := by
      rw [ha] at hminv
      linarith
    refine ⟨hst, ?_, ?_, ?_⟩
    · rw [hx, ha]
      rfl
    · rw [hx, hd100]
      rfl
    · rw [(solve_parts ucpScenario fuel).1, hx]
      simp [ucpScenario, evalExpr, dot]
      rw [ha, hd100]
      norm_num

/-- C7 witness: the hypotheses are satisfiable at the minimal budget. -/
theorem claim7_witness :
    8 ≤ 8 ∧
      ((solve ucpScenario 8).status = .optimal ∧
        (solve ucpScenario 8).values.getD 0 0 = 1 ∧
        (solve ucpScenario 8).values.getD 3 0 = 100 ∧
        (solve ucpScenario 8).objectiveValue = 110) :=
  ⟨le_refl _, claim7_ucp_scenario 8 (le_refl _)⟩

/-- C8: the facility-location scenario (2 users of load 10, one server of
capacity 50 and one of capacity 5) solves to the optimal assignment placing
both users on the capacity-50 server, and the registered KPI
`Number of active servers` evaluates to 1 on that Solution. -/
theorem claim8_load_balancing (fuel : ℕ) (hfuel : 128 ≤ fuel) :
    (solve lbScenario fuel).status = .optimal ∧
      (solve lbScenario fuel).values = [1, 0, 1, 0, 1, 0] ∧
      evaluate lbScenario (.kpiName "Number of active servers")
        (solve lbScenario fuel) = .ok 1 := by
  have hwf : MWf lbScenario := by decide
  have hb : BinInts lbScenario := by decide
  have hfree : freeN lbScenario [] = 6 := by decide
  have hnl : (solve lbScenario fuel).status ≠ .stoppedAtLimit := by
    apply solve_no_limit_free hwf hb
    rw [hfree]
    omega
  have hcand : MixFeas lbScenario [1, 0, 1, 0, 1, 0] := by decide
  have hnu : (solve lbScenario fuel).status ≠ .unbounded := by
    intro h
    obtain ⟨y, hl, hs, hd⟩ := (solve_invariants hwf fuel).2.2 h (-1)
    obtain ⟨A, B, p, q, r, s, rfl⟩ := list_len6 hl
    have hA := binVar_bounds_base hb (m := lbScenario) (j := 0) (by decide) (by decide) hs hl
    have hB := binVar_bounds_base hb (m := lbScenario) (j := 1) (by decide) (by decide) hs hl
    simp at hA hB
    simp [objVec, dot] at hd
    linarith [hA.1, hB.1]
  have hninf : (solve lbScenario fuel).status ≠ .infeasible := by
    intro h
    exact (solve_invariants hwf fuel).2.1 h [1, 0, 1, 0, 1, 0] hcand
  have hst : (solve lbScenario fuel).status = .optimal := by
    cases h : (solve lbScenario fuel).status with
    | optimal => rfl
    | infeasible => exact absurd h hninf
    | unbounded => exact absurd h hnu
    | stoppedAtLimit => exact absurd h hnl
  obtain ⟨hfeas, hmin⟩ := (solve_invariants hwf fuel).1 hst
  have hminv := hmin [1, 0, 1, 0, 1, 0] hcand
  obtain ⟨hlen, hsat, hint⟩ := hfeas
  obtain ⟨A, B, p, q, r, s, hx⟩ := list_len6 hlen
  rw [hx] at hsat hint hminv
  have hlen6 : ([A, B, p, q, r, s] : List ℚ).length = numVars lbScenario := by
    rw [hx] at hlen
    exact hlen
  have hcap2 : satCtr [A, B, p, q, r, s] ⟨⟨[0, 0, 0, 10, 0, 10], 0⟩, .le, 5⟩ :=
    satCtr_of_satBase (by decide) hsat
  have hpA : satCtr [A, B, p, q, r, s] ⟨⟨[-1, 0, 1, 0, 0, 0], 0⟩, .le, 0⟩ :=
    satCtr_of_satBase (by decide) hsat
  have huq1 : satCtr [A, B, p, q, r, s] ⟨⟨[0, 0, 1, 1, 0, 0], 0⟩, .eq, 1⟩ :=
    satCtr_of_satBase (by decide) hsat
  have huq2 : satCtr [A, B, p, q, r, s] ⟨⟨[0, 0, 0, 0, 1, 1], 0⟩, .eq, 1⟩ :=
    satCtr_of_satBase (by decide) hsat
  have hcap2' : evalExpr ⟨[0, 0, 0, 10, 0, 10], 0⟩ [A, B, p, q, r, s] ≤ 5 := hcap2
  have hpA' : evalExpr ⟨[-1, 0, 1, 0, 0, 0], 0⟩ [A, B, p, q, r, s] ≤ 0 := hpA
  have huq1' : evalExpr ⟨[0, 0, 1, 1, 0, 0], 0⟩ [A, B, p, q, r, s] = 1 := huq1
  have huq2' : evalExpr ⟨[0, 0, 0, 0, 1, 1], 0⟩ [A, B, p, q, r, s] = 1 := huq2
  simp [evalExpr, dot] at hcap2' hpA' huq1' huq2'
  have hbk : ∀ j, j < 6 → (varAt lbScenario j).kind ≠ .continuous := by decide
  have hsat' : satSys (baseRows lbScenario ++ []) [A, B, p, q, r, s] := by
    rw [List.append_nil]
    exact hsat
  have hAb := binVar_bounds hb (m := lbScenario) (j := 0) (by norm_num [numVars, lbScenario])
    (hbk 0 (by norm_num)) hsat' hlen6
  have hBb := binVar_bounds hb (m := lbScenario) (j := 1) (by norm_num [numVars, lbScenario])
    (hbk 1 (by norm_num)) hsat' hlen6
  have hqb := binVar_bounds hb (m := lbScenario) (j := 3) (by norm_num [numVars, lbScenario])
    (hbk 3 (by norm_num)) hsat' hlen6
  have hsb := binVar_bounds hb (m := lbScenario) (j := 5) (by norm_num [numVars, lbScenario])
    (hbk 5 (by norm_num)) hsat' hlen6
  simp at hAb hBb hqb hsb
  have hqi : isIntQ q := by
    have h := hint 3 (by norm_num [numVars, lbScenario]) (hbk 3 (by norm_num))
    simpa using h
  have hsi : isIntQ s := by
    have h := hint 5 (by norm_num [numVars, lbScenario]) (hbk 5 (by norm_num))
    simpa using h
  simp [objVec, dot] at hminv
  have hq0 : q = 0 := by
    rcases int_zero_or_one hqi hqb.1 hqb.2 with h | h
    · exact h
    · exfalso
      rw [h] at hcap2'
      linarith [hsb.1]
  have hs0 : s = 0 := by
    rcases int_zero_or_one hsi hsb.1 hsb.2 with h | h
    · exact h
    · exfalso
      rw [h] at hcap2'
      linarith [hqb.1]
  have hp1 : p = 1 := by
    rw [hq0] at huq1'
    linarith
  have hr1 : r = 1 := by
    rw [hs0] at huq2'
    linarith
  have hA1 : A = 1 := by
    rw [hp1] at hpA'
    linarith [hAb.2]
  have hB0 : B = 0 := by
    rw [hA1] at hminv
    linarith [hBb.1]
  have hvals : (solve lbScenario fuel).values = [1, 0, 1, 0, 1, 0] := by
    rw [hx, hA1, hB0, hp1, hq0, hr1, hs0]
  refine ⟨hst, hvals, ?_⟩
  have hres : resolveTarget lbScenario (.kpiName "Number of active servers") =
      some ⟨[1, 1, 0, 0, 0, 0], 0⟩ := rfl
  obtain ⟨hov, hsv, hsc⟩ := solve_parts lbScenario fuel
  simp only [evaluate, hres, hsv, hsc]
  rw [if_pos ⟨trivial, trivial⟩, hvals]
  norm_num [evalExpr, dot]

/-- C8 witness: the hypotheses are satisfiable at the minimal budget. -/
theorem claim8_witness :
    128 ≤ 128 ∧
      ((solve lbScenario 128).status = .optimal ∧
        (solve lbScenario 128).values = [1, 0, 1, 0, 1, 0] ∧
        evaluate lbScenario (.kpiName "Number of active servers")
          (solve lbScenario 128) = .ok 1) :=
  ⟨le_refl _, claim8_load_balancing 128 (le_refl _)⟩

end RatKernelEvalScenarios

end MipSpec
